import Mathlib

/-!
# burrbd/crawler: a shallow embedding of `crawler.go`

The file embeds the three parts of `crawler.go`:

* `ParseLinksFunc`: the link extractor, a regular expression run with the
  leftmost-first (backtracking) semantics of Go's `regexp` package;
* `ResourceGetter.Links`: the fetch capability, with `http.Get`,
  `ioutil.ReadAll` and `url.ParseRequestURI` taken as abstract outcomes;
* `Crawl`: the goroutines of the crawl (caller, gatekeeper, workers, shutdown
  watcher) as an interleaving machine whose schedule is a list of actions.
-/

namespace Crawler

/-! ## Data model (`crawler.go` lines 11-41) -/

/-- Go `error` values are modelled by their message. `none` is the nil error. -/
abbrev Error := String

/-- The struct `Resource` of `crawler.go`. -/
structure Resource where
  URL : String
  Links : List String
  deriving DecidableEq, Repr

/-- The struct `Result` of `crawler.go`: an embedded `Resource` and an error. -/
structure Result extends Resource where
  Err : Option Error
  deriving DecidableEq, Repr

/-- The interface `LinkGetter`: its one method `Links(url)`, as a function
from the URL to the pair of return values. A crawl calls `Links` at most once
for a URL, so a function of the URL describes every call it makes. -/
abbrev LinkGetter := String → List String × Option Error

/-- The function type `LinkParser` of `crawler.go`: `func(host, body string) []string`. -/
abbrev LinkParser := String → String → List String

/-! ## Regular expressions (the fragment of Go `regexp` used by `validLink`) -/

/-- Regular expressions over characters: the constructs that occur in the
pattern of `ParseLinksFunc`. `set p` is a one-character class, `star p` the
greedy repetition `[...]*` of a class, `opt` the greedy `(...)?`. -/
inductive Re where
  | eps : Re
  | set (p : Char → Bool) : Re
  | seq (a b : Re) : Re
  | alt (a b : Re) : Re
  | opt (a : Re) : Re
  | star (p : Char → Bool) : Re

/-- All the ways the greedy repetition of the class `p` can consume a prefix
of the input, longest first: the list of the inputs that remain. -/
def starRun (p : Char → Bool) : List Char → List (List Char)
  | [] => [[]]
  | c :: s => if p c then starRun p s ++ [c :: s] else [c :: s]

/-- Backtracking matcher. `r.run s` lists, in the priority order of a
leftmost-first engine (first alternative first, greedy operators longest
first), the inputs that remain after `r` has matched a prefix of `s`. -/
def Re.run : Re → List Char → List (List Char)
  | .eps, s => [s]
  | .set _, [] => []
  | .set p, c :: s => if p c then [s] else []
  | .seq a b, s => (a.run s).flatMap b.run
  | .alt a b, s => a.run s ++ b.run s
  | .opt a, s => a.run s ++ [s]
  | .star p, s => starRun p s

/-- The literal character `c`. -/
def Re.chr (c : Char) : Re := .set (fun d => d == c)

/-- The wildcard `.` of Go `regexp`: any character but the newline. -/
def Re.any : Re := .set (fun d => d != '\n')

/-- The literal string `cs`. -/
def Re.lit : List Char → Re
  | [] => .eps
  | c :: cs => .seq (.chr c) (Re.lit cs)

/-- The match of `r` at the start of `s` that a leftmost-first engine
reports: the matched text and the input after it. -/
def Re.matchAt (r : Re) (s : List Char) : Option (List Char × List Char) :=
  match r.run s with
  | [] => none
  | rest :: _ => some (s.take (s.length - rest.length), rest)

/-- Successive non-overlapping matches of `r` in `s`, scanning left to right;
after a match the scan resumes at its end, otherwise one character further.
The fuel bounds the number of scan positions. Only non-empty matches are
reported (the pattern of `ParseLinksFunc` starts with a scheme and cannot match
the empty string). -/
def findAllFuel (r : Re) : Nat → List Char → List (List Char)
  | 0, _ => []
  | _, [] => []
  | fuel + 1, c :: s =>
    match r.matchAt (c :: s) with
    | some (_ :: m, rest) => (c :: m) :: findAllFuel r fuel rest
    | _ => findAllFuel r fuel s

/-- The method `(*Regexp).FindAllString(body, -1)`. -/
def FindAllString (r : Re) (body : String) : List String :=
  (findAllFuel r body.data.length body.data).map String.mk

/-! ## `ParseLinksFunc` (`crawler.go` lines 43-50) -/

/-- `\w` of Go `regexp`: `[0-9A-Za-z_]`. -/
def isWord (c : Char) : Bool := c.isAlphanum || c == '_'

/-- The class `[\w.,@?^=%&:/~+#-]`. -/
def isLinkChar (c : Char) : Bool :=
  isWord c || c ∈ ['.', ',', '@', '?', '^', '=', '%', '&', ':', '/', '~', '+', '#', '-']

/-- The class `[\w@?^=%&/~+#-]`. -/
def isLinkEnd (c : Char) : Bool :=
  isWord c || c ∈ ['@', '?', '^', '=', '%', '&', '/', '~', '+', '#', '-']

/-- Characters with a meaning of their own in a Go pattern, the dot apart. -/
def metaChars : List Char :=
  ['\\', '^', '$', '*', '+', '?', '(', ')', '[', ']', '\x7b', '\x7d', '|']

/-- The host, spliced unquoted into the pattern, read as a regular expression:
a dot is the wildcard, any other character that is not a metacharacter stands
for itself. Hosts containing another metacharacter are outside this fragment
(`none`): on some of them `regexp.MustCompile` compiles another pattern, on
others it panics, and `none` stands for neither. -/
def hostPattern : List Char → Option Re
  | [] => some .eps
  | c :: cs =>
    if c ∈ metaChars then none
    else (hostPattern cs).map (Re.seq (if c = '.' then Re.any else Re.chr c))

/-- The pattern
`(http|ftp|https)://(` host `)([\w.,@?^=%&:/~+#-]*[\w@?^=%&/~+#-])?`
for the compiled host sub-pattern `h`. -/
def validLink (h : Re) : Re :=
  .seq (.alt (Re.lit "http".data) (.alt (Re.lit "ftp".data) (Re.lit "https".data)))
    (.seq (Re.lit "://".data)
      (.seq h (.opt (.seq (.star isLinkChar) (.set isLinkEnd)))))

/-- A compiled `*regexp.Regexp`, as far as `ParseLinksFunc` uses it: its
method `FindAllString(body, -1)`. -/
structure Regexp where
  FindAllString : String → List String

/-- The pattern string that `ParseLinksFunc` hands to `regexp.MustCompile`:
the host is spliced between the two literals of line 45. -/
def linkPattern (host : String) : String :=
  "(http|ftp|https)://(" ++ host ++ ")([\\w.,@?^=%&:/~+#-]*[\\w@?^=%&/~+#-])?"

/-- The function `ParseLinksFunc` for every host, with `regexp.MustCompile`
taken as a parameter (`none`: it panics on the pattern). The pattern is
compiled from the outer `host`; the returned closure takes a `host` of its
own, which it does not use. -/
def ParseLinksFuncWith (MustCompile : String → Option Regexp) (host : String) :
    Option LinkParser :=
  (MustCompile (linkPattern host)).map fun validLink =>
    fun (_host body : String) => validLink.FindAllString body

/-- The function `ParseLinksFunc` with the pattern compiled by `hostPattern`:
`ParseLinksFuncWith` where `MustCompile` answers on the pattern of `host` what
`hostPattern` gives. `none` means only that the host is outside the embedded
pattern fragment; what the code does on such a host (a parser for another
pattern, or the panic of `MustCompile`) is covered by `ParseLinksFuncWith`. -/
def ParseLinksFunc (host : String) : Option LinkParser :=
  (hostPattern host.data).map fun h =>
    let validLink := validLink h
    fun (_host body : String) => FindAllString validLink body

/-- The variable `linksToParse` of `crawler_test.go`. -/
def linksToParse : String :=
  "\nsome content https://mydomain.com/\nsrc=\"https://mydomain.com/path/to/content?with=query#and-heading\"\nhref = \"http://mydomain.com/path/to/content?with=query#and-heading\"\nrel=\"http://not.mydomain.com/ more content\n"

/-! ## `ResourceGetter.Links` (`crawler.go` lines 52-77) -/

/-- Outcome of `http.Get(u)`: a transport error, or a response with its
status code and the outcome of `ioutil.ReadAll(resp.Body)`. -/
inductive GetOutcome where
  | failed (err : Error) : GetOutcome
  | response (StatusCode : Nat) (Body : Except Error String) : GetOutcome

/-- The library calls of `ResourceGetter.Links`, as abstract outcomes.
`ParseRequestURI u` gives the `Host` field of the parsed URL, or the error. -/
structure Net where
  Get : String → GetOutcome
  ParseRequestURI : String → Except Error String

/-- The struct `ResourceGetter` of `crawler.go`. -/
structure ResourceGetter where
  ParseFunc : LinkParser

/-- The method `ResourceGetter.Links`. -/
def ResourceGetter.Links (r : ResourceGetter) (net : Net) (u : String) :
    List String × Option Error :=
  let ln : List String := []
  match net.Get u with
  | .failed err => (ln, some err)
  | .response StatusCode Body =>
    if 200 ≠ StatusCode then (ln, some "non-200 HTTP status code")
    else
      match Body with
      | .error err => (ln, some err)
      | .ok b =>
        match net.ParseRequestURI u with
        | .error err => (ln, some err)
        | .ok host => (r.ParseFunc host b, none)

/-! ## `Crawl` (`crawler.go` lines 79-110) -/

/-- The channel operations of a worker. -/
inductive Op where
  | sendIn (link : String) : Op
  | sendOut (res : Result) : Op
  deriving DecidableEq, Repr

/-- The loop `for _, link := range links { in <- link }`. -/
def sendLinks : List String → List Op
  | [] => []
  | link :: links => .sendIn link :: sendLinks links

/-- The closure `doWork` of `Crawl`, after its call of `g.Links(url)`: the
channel operations it performs, in program order. -/
def doWork (g : LinkGetter) (url : String) : List Op :=
  let links := (g url).1
  let err := (g url).2
  sendLinks links ++ [.sendOut ⟨⟨url, links⟩, err⟩]

/-- One iteration of the gatekeeper loop `for link := range in` (lines 98-104)
on the map `visited`, held as the list of its keys: `continue` when `link` is
a key, otherwise `go doWork(link)` and `visited[link] = true`. Returns the map
afterwards and the URL handed to `go doWork`, if any. Only the gatekeeper
goroutine reads or writes `visited`, so the body is one move. -/
def gatekeeper (visited : List String) (link : String) : List String × Option String :=
  if link ∈ visited then (visited, none)
  else (link :: visited, some link)

/-- The gatekeeper loop over the links received from `in`: the final map
and the URLs for which `go doWork(link)` ran, in order. -/
def gatekeeperLoop (visited : List String) : List String → List String × List String
  | [] => (visited, [])
  | link :: rest =>
    let step := gatekeeper visited link
    let tail := gatekeeperLoop step.1 rest
    (tail.1, step.2.toList ++ tail.2)

/-- A goroutine running `doWork(url)`. `todo = none`: `g.Links` has not been
called yet; `todo = some ops`: the channel operations still to perform. -/
structure Worker where
  url : String
  todo : Option (List Op)
  deriving DecidableEq, Repr

/-- The goroutine `<-done; close(out)`. -/
inductive Watcher where
  | waiting : Watcher
  | signalled : Watcher
  | exited : Watcher
  deriving DecidableEq, Repr

/-- Observable events of a crawl, in the order they happen. -/
inductive Event where
  | links (url : String) : Event
  | result (res : Result) : Event
  | done : Event
  | close : Event
  | panic (url : String) : Event
  deriving DecidableEq, Repr

/-- State of one call of `Crawl`. `caller` is the URL that `in <- url` has
still to push; `inbox` is the loop variable `link` of the gatekeeper between
its receive and the end of the loop body. -/
structure State where
  caller : Option String
  inbox : Option String
  visited : List String
  workers : List Worker
  watcher : Watcher
  panicked : Bool
  log : List Event
  deriving DecidableEq, Repr

/-- The function `Crawl`, up to its `in <- url`: the map and the channels are
made, the three goroutines are started and the caller has `url` to push. The
LinkGetter `g` is a parameter of the moves (`step`), the stop signal on
`done` is the move `Action.done`, and the returned channel `out` is read
off the `log`. -/
def Crawl (url : String) : State :=
  { caller := some url, inbox := none, visited := [], workers := [],
    watcher := .waiting, panicked := false, log := [] }

/-- The moves of the scheduler. -/
inductive Action where
  | seed : Action
  | gate : Action
  | links (i : Nat) : Action
  | send (i : Nat) : Action
  | done : Action
  | close : Action
  deriving DecidableEq, Repr

/-- One move. `none` when the move is not enabled (the goroutine is blocked,
has exited, or the program has panicked).

* `seed`: the caller's `in <- url`, received by the gatekeeper;
* `gate`: the gatekeeper's loop body on the link it received;
* `links i`: worker `i` calls `g.Links(url)`;
* `send i`: worker `i` performs its next channel operation; a send on the
  unbuffered `in` needs the gatekeeper at its receive, a send on the closed
  `out` panics (also when the worker was already blocked in the send at the
  time of the close), a send on the open `out` is received by the consumer;
* `done`: the stop signal is received by the watcher;
* `close`: the watcher runs `close(out)`. -/
def step (g : LinkGetter) (s : State) : Action → Option State
  | .seed =>
    if s.panicked then none else
    match s.caller, s.inbox with
    | some url, none => some { s with caller := none, inbox := some url }
    | _, _ => none
  | .gate =>
    if s.panicked then none else
    match s.inbox with
    | none => none
    | some link =>
      let r := gatekeeper s.visited link
      some { s with inbox := none, visited := r.1,
                    workers := s.workers ++ r.2.toList.map (fun u => ⟨u, none⟩) }
  | .links i =>
    if s.panicked then none else
    match s.workers[i]? with
    | some ⟨url, none⟩ =>
      some { s with workers := s.workers.set i ⟨url, some (doWork g url)⟩,
                    log := s.log ++ [.links url] }
    | _ => none
  | .send i =>
    if s.panicked then none else
    match s.workers[i]? with
    | some ⟨url, some (.sendIn link :: ops)⟩ =>
      match s.inbox with
      | none => some { s with inbox := some link, workers := s.workers.set i ⟨url, some ops⟩ }
      | some _ => none
    | some ⟨url, some (.sendOut res :: ops)⟩ =>
      if s.watcher = .exited then
        some { s with panicked := true, log := s.log ++ [.panic url] }
      else
        some { s with workers := s.workers.set i ⟨url, some ops⟩,
                      log := s.log ++ [.result res] }
    | _ => none
  | .done =>
    if s.panicked then none else
    if s.watcher = .waiting then
      some { s with watcher := .signalled, log := s.log ++ [.done] }
    else none
  | .close =>
    if s.panicked then none else
    if s.watcher = .signalled then
      some { s with watcher := .exited, log := s.log ++ [.close] }
    else none

/-- Run a schedule. -/
def run (g : LinkGetter) (s : State) : List Action → Option State
  | [] => some s
  | a :: as => (step g s a).bind (fun t => run g t as)

/-- The Results delivered on `out`, in order. -/
def results : List Event → List Result
  | [] => []
  | .result r :: es => r :: results es
  | _ :: es => results es

/-- The URLs passed to `g.Links`, in order. -/
def fetched : List Event → List String
  | [] => []
  | .links u :: es => u :: fetched es
  | _ :: es => fetched es

/-- The URLs for which `go doWork(link)` ran, in order. -/
def dispatched (s : State) : List String := s.workers.map (fun w => w.url)

/-- The caller has pushed the seed, the gatekeeper is at its receive and
every worker has returned. -/
def finished (s : State) : Bool :=
  s.caller.isNone && s.inbox.isNone && s.workers.all (fun w => w.todo == some [])

/-- Reachability in the link graph of `g`. -/
def Reach (g : LinkGetter) (seed : String) : String → Prop :=
  Relation.ReflTransGen (fun a b => b ∈ (g a).1) seed

/-! ## Specification-side definitions -/

/-- The first occurrences of a sequence, in order: an element is kept and
its later copies are dropped. -/
def firstOccurrences : List String → List String
  | [] => []
  | x :: xs => x :: (firstOccurrences xs).filter (fun y => y ≠ x)

/-- The Result that `doWork(url)` builds from the return values of `g.Links(url)`. -/
def resultOf (g : LinkGetter) (url : String) : Result :=
  ⟨⟨url, (g url).1⟩, (g url).2⟩

/-- The moves of `step`, as a relation between states. -/
inductive Step (g : LinkGetter) : State → State → Prop where
  | seed {s : State} {url : String} (hp : s.panicked = false)
      (hc : s.caller = some url) (hi : s.inbox = none) :
      Step g s { s with caller := none, inbox := some url }
  | skip {s : State} {link : String} (hp : s.panicked = false)
      (hi : s.inbox = some link) (hv : link ∈ s.visited) :
      Step g s { s with inbox := none }
  | accept {s : State} {link : String} (hp : s.panicked = false)
      (hi : s.inbox = some link) (hv : link ∉ s.visited) :
      Step g s { s with inbox := none, visited := link :: s.visited,
                        workers := s.workers ++ [⟨link, none⟩] }
  | links {s : State} {i : Nat} {url : String} (hp : s.panicked = false)
      (hw : s.workers[i]? = some ⟨url, none⟩) :
      Step g s { s with workers := s.workers.set i ⟨url, some (doWork g url)⟩,
                        log := s.log ++ [.links url] }
  | sendIn {s : State} {i : Nat} {url link : String} {ops : List Op}
      (hp : s.panicked = false)
      (hw : s.workers[i]? = some ⟨url, some (.sendIn link :: ops)⟩) (hi : s.inbox = none) :
      Step g s { s with inbox := some link, workers := s.workers.set i ⟨url, some ops⟩ }
  | deliver {s : State} {i : Nat} {url : String} {res : Result} {ops : List Op}
      (hp : s.panicked = false)
      (hw : s.workers[i]? = some ⟨url, some (.sendOut res :: ops)⟩)
      (hx : s.watcher ≠ .exited) :
      Step g s { s with workers := s.workers.set i ⟨url, some ops⟩,
                        log := s.log ++ [.result res] }
  | panic {s : State} {i : Nat} {url : String} {res : Result} {ops : List Op}
      (hp : s.panicked = false)
      (hw : s.workers[i]? = some ⟨url, some (.sendOut res :: ops)⟩)
      (hx : s.watcher = .exited) :
      Step g s { s with panicked := true, log := s.log ++ [.panic url] }
  | done {s : State} (hp : s.panicked = false) (hx : s.watcher = .waiting) :
      Step g s { s with watcher := .signalled, log := s.log ++ [.done] }
  | close {s : State} (hp : s.panicked = false) (hx : s.watcher = .signalled) :
      Step g s { s with watcher := .exited, log := s.log ++ [.close] }

/-- What holds in every state of a crawl started on `seed`. -/
structure Inv (g : LinkGetter) (seed : String) (s : State) : Prop where
  nodup : (dispatched s).Nodup
  visited_iff : ∀ u, u ∈ s.visited ↔ u ∈ dispatched s
  shape : ∀ w ∈ s.workers, ∀ ops, w.todo = some ops →
    ops = [] ∨ ∃ ls, ops = sendLinks ls ++ [.sendOut (resultOf g w.url)] ∧
      ∀ l ∈ ls, l ∈ (g w.url).1
  closure : ∀ w ∈ s.workers, ∀ ops, w.todo = some ops → ∀ l ∈ (g w.url).1,
    Op.sendIn l ∈ ops ∨ l ∈ s.visited ∨ s.inbox = some l
  caller_seed : ∀ x, s.caller = some x → x = seed
  seed_in : s.caller = none → seed ∈ s.visited ∨ s.inbox = some seed
  reach_visited : ∀ u ∈ s.visited, Reach g seed u
  reach_inbox : ∀ l, s.inbox = some l → Reach g seed l
  res_nodup : ((results s.log).map (fun r => r.URL)).Nodup
  res_fin : ∀ r ∈ results s.log, r = resultOf g r.URL ∧
    ∃ w ∈ s.workers, w.url = r.URL ∧ w.todo = some []
  fin_res : ∀ w ∈ s.workers, w.todo = some [] → resultOf g w.url ∈ results s.log
  fetched_nodup : (fetched s.log).Nodup
  fetched_started : ∀ u ∈ fetched s.log, ∃ w ∈ s.workers, w.url = u ∧ w.todo ≠ none

/-- What the log records about the watcher and about panics. -/
structure LogInv (s : State) : Prop where
  done_iff : Event.done ∈ s.log ↔ s.watcher ≠ .waiting
  close_iff : Event.close ∈ s.log ↔ s.watcher = .exited
  close_once : s.log.count Event.close ≤ 1
  close_after : ∀ pre post, s.log = pre ++ Event.close :: post →
    Event.done ∈ pre ∧ ∀ r, Event.result r ∉ post
  panic_iff : (∃ u, Event.panic u ∈ s.log) ↔ s.panicked = true
  panic_last : ∀ pre post u, s.log = pre ++ Event.panic u :: post →
    Event.close ∈ pre ∧ post = []

/-- Declarative reading of a pattern: `r.Matches m` when `r` matches exactly
the text `m`. -/
def Re.Matches : Re → List Char → Prop
  | .eps, m => m = []
  | .set p, m => ∃ c, m = [c] ∧ p c = true
  | .seq a b, m => ∃ m1 m2, m = m1 ++ m2 ∧ a.Matches m1 ∧ b.Matches m2
  | .alt a b, m => a.Matches m ∨ b.Matches m
  | .opt a, m => m = [] ∨ a.Matches m
  | .star p, m => ∀ c ∈ m, p c = true

/-- The text of an absolute link after its `://`. -/
def afterScheme : List Char → List Char
  | ':' :: '/' :: '/' :: rest => rest
  | _ :: cs => afterScheme cs
  | [] => []

/-- The host component of an absolute link: the text between `://` and the
next `/`, `?` or `#`. -/
def hostOf (link : String) : String :=
  String.mk ((afterScheme link.data).takeWhile (fun c => c != '/' && c != '?' && c != '#'))

/-- Moves a channel operation still costs: a send on `in` is followed by
one gatekeeper move. -/
def opCost : Op → Nat
  | .sendIn _ => 2
  | .sendOut _ => 1

/-- Moves a list of channel operations still costs. -/
def opsCost (ops : List Op) : Nat := (ops.map opCost).sum

/-- Moves a worker on `url` costs from its start. -/
def urlCost (g : LinkGetter) (url : String) : Nat := 1 + opsCost (doWork g url)

/-- Moves a worker still costs. -/
def workerCost (g : LinkGetter) (w : Worker) : Nat :=
  match w.todo with
  | none => urlCost g w.url
  | some ops => opsCost ops

/-- Moves the watcher still has. -/
def watcherCost : Watcher → Nat
  | .waiting => 2
  | .signalled => 1
  | .exited => 0

/-- An upper bound on the number of moves left from `s`, when `nodes` lists
the URLs that can be discovered. -/
def movesLeft (g : LinkGetter) (nodes : List String) (s : State) : Nat :=
  (if s.caller.isSome then 2 else 0) + (if s.inbox.isSome then 1 else 0) +
  (s.workers.map (workerCost g)).sum +
  ((nodes.filter (fun u => u ∉ s.visited)).map (urlCost g)).sum +
  watcherCost s.watcher + (if s.panicked then 0 else 1)

/-- An upper bound on the length of a crawl of the graph with the given nodes. -/
def runBound (g : LinkGetter) (nodes : List String) : Nat :=
  5 + (nodes.map (urlCost g)).sum

/-! ## Test inputs -/

/-- A network on which `http.Get("invalid")` fails and every other URL
answers 404 with a body. -/
def testNet : Net :=
  { Get := fun u => if u = "invalid" then .failed "unsupported protocol scheme"
                    else .response 404 (.ok "some body"),
    ParseRequestURI := fun u => if u = "invalid" then .error "invalid URI for request"
                                else .ok "127.0.0.1" }

/-- The host sub-pattern `[::1]:8080`: the class of `:` and `1`, then `:8080`. -/
def ipv6HostRe : Re :=
  .seq (.set (fun c => c == ':' || c == '1')) (Re.lit ":8080".data)

/-- A `MustCompile` that knows the pattern of the host `[::1]:8080`. -/
def ipv6Compile (pattern : String) : Option Regexp :=
  if pattern = linkPattern "[::1]:8080" then
    some ⟨fun body => FindAllString (validLink ipv6HostRe) body⟩
  else none

/-- The parser that `ParseLinksFuncWith ipv6Compile` returns for `[::1]:8080`. -/
def ipv6Parser : LinkParser :=
  fun _ body => FindAllString (validLink ipv6HostRe) body

/-- The parser that `ParseLinksFunc` returns for the host `mydomain.com`. -/
def testParser : LinkParser :=
  (ParseLinksFunc "mydomain.com").getD (fun _ _ => [])

/-- A link graph with a cycle and a repeated link: `a` links to `b`, `a`, `b`
and `b` links back to `a`. -/
def cyclicGetter : LinkGetter := fun u =>
  if u = "a" then (["b", "a", "b"], none)
  else if u = "b" then (["a"], none)
  else ([], none)

/-- A LinkGetter that reports an error for `a` and returns a link with it. -/
def brokenGetter : LinkGetter := fun u =>
  if u = "a" then (["b"], some "boom") else ([], none)

/-- An acyclic link graph: `a` links to `b`, and `b` has no link. -/
def chainGetter : LinkGetter := fun u =>
  if u = "a" then (["b"], none) else ([], none)

/-- A complete crawl of `cyclicGetter` from `a`: `a` is submitted twice and
`b` twice. -/
def cyclicRun : List Action :=
  [.seed, .gate, .links 0, .send 0, .gate, .send 0, .gate, .send 0, .gate,
   .links 1, .send 1, .gate, .send 0, .send 1]

/-- The state at the end of `cyclicRun`. -/
def cyclicEnd : State :=
  { caller := none, inbox := none, visited := ["b", "a"],
    workers := [⟨"a", some []⟩, ⟨"b", some []⟩],
    watcher := .waiting, panicked := false,
    log := [.links "a", .links "b", .result ⟨⟨"a", ["b", "a", "b"]⟩, none⟩,
            .result ⟨⟨"b", ["a"]⟩, none⟩] }

/-- A crawl of `brokenGetter` from `a` up to the Result of `a`. -/
def brokenRun : List Action :=
  [.seed, .gate, .links 0, .send 0, .gate, .send 0]

/-- The state at the end of `brokenRun`. -/
def brokenEnd : State :=
  { caller := none, inbox := none, visited := ["b", "a"],
    workers := [⟨"a", some []⟩, ⟨"b", none⟩],
    watcher := .waiting, panicked := false,
    log := [.links "a", .result ⟨⟨"a", ["b"]⟩, some "boom"⟩] }

/-- A crawl of `brokenGetter` in which the stop signal fires and `out` is
closed while the worker of `a` still has its Result to send. -/
def stopRun : List Action :=
  [.seed, .gate, .links 0, .send 0, .gate, .done, .close, .send 0]

/-- The state at the end of `stopRun`. -/
def stopEnd : State :=
  { caller := none, inbox := none, visited := ["b", "a"],
    workers := [⟨"a", some [.sendOut ⟨⟨"a", ["b"]⟩, some "boom"⟩]⟩, ⟨"b", none⟩],
    watcher := .exited, panicked := true,
    log := [.links "a", .done, .close, .panic "a"] }

/-- A complete crawl of `chainGetter` from `a`. -/
def chainRun : List Action :=
  [.seed, .gate, .links 0, .send 0, .gate, .links 1, .send 1, .send 0]

/-- The state at the end of `chainRun`. -/
def chainEnd : State :=
  { caller := none, inbox := none, visited := ["b", "a"],
    workers := [⟨"a", some []⟩, ⟨"b", some []⟩],
    watcher := .waiting, panicked := false,
    log := [.links "a", .links "b", .result ⟨⟨"b", []⟩, none⟩,
            .result ⟨⟨"a", ["b"]⟩, none⟩] }

/-! ## The fetch capability -/

theorem links_empty_of_err (r : ResourceGetter) (net : Net) (u : String)
    (h : (r.Links net u).2 ≠ none) : (r.Links net u).1 = [] := by
  unfold ResourceGetter.Links at h ⊢
  cases hget : net.Get u with
  | failed err => rfl
  | response code body =>
    by_cases hc : 200 = code
    · subst hc
      cases body with
      | error e => rfl
      | ok b =>
        cases hp : net.ParseRequestURI u with
        | error e => rfl
        | ok host => simp [hget, hp] at h
    · simp [hc]

/-- Claim C3: `ResourceGetter.Links` returns the parsed links with a nil error
exactly when the GET succeeds with status 200, the body is read and the URL
parses; in every other case it returns no link and a non-nil error. -/
theorem links_ok_iff (r : ResourceGetter) (net : Net) (u : String) :
    ((r.Links net u).2 = none ↔
      ∃ b host, net.Get u = .response 200 (.ok b) ∧ net.ParseRequestURI u = .ok host) ∧
    (∀ b host, net.Get u = .response 200 (.ok b) → net.ParseRequestURI u = .ok host →
      r.Links net u = (r.ParseFunc host b, none)) ∧
    ((r.Links net u).2 ≠ none → (r.Links net u).1 = []) := by
  unfold ResourceGetter.Links
  cases hget : net.Get u with
  | failed err => simp
  | response code body =>
    by_cases hc : code = 200
    · subst hc
      cases body with
      | error e => simp
      | ok b =>
        cases hp : net.ParseRequestURI u with
        | error e => simp
        | ok host => simp
    · have hc2 : ¬ (200 = code) := fun h => hc h.symm
      simp [hc, hc2]

/-- Instance of `links_ok_iff`: the URL `"invalid"` yields no link. -/
theorem links_ok_iff_witness :
    (ResourceGetter.Links ⟨fun _ _ => ["first link"]⟩ testNet "invalid").2 ≠ none ∧
    (ResourceGetter.Links ⟨fun _ _ => ["first link"]⟩ testNet "invalid").1 = [] :=
  ⟨by decide, (links_ok_iff ⟨fun _ _ => ["first link"]⟩ testNet "invalid").2.2 (by decide)⟩

/-! ## Soundness of the matcher -/

theorem starRun_sound (p : Char → Bool) :
    ∀ (s rest : List Char), rest ∈ starRun p s →
      ∃ m, s = m ++ rest ∧ ∀ c ∈ m, p c = true := by
  intro s
  induction s with
  | nil =>
    intro rest h
    simp only [starRun, List.mem_singleton] at h
    exact ⟨[], by simp [h], by simp⟩
  | cons c s ih =>
    intro rest h
    simp only [starRun] at h
    by_cases hp : p c = true
    · simp only [hp, if_true, List.mem_append, List.mem_singleton] at h
      rcases h with h | h
      · obtain ⟨m, hm, hall⟩ := ih rest h
        refine ⟨c :: m, by simp [hm], ?_⟩
        intro d hd
        simp only [List.mem_cons] at hd
        rcases hd with hd | hd
        · rw [hd]; exact hp
        · exact hall d hd
      · exact ⟨[], by simp [h], by simp⟩
    · simp only [hp, Bool.false_eq_true, if_false, List.mem_singleton] at h
      exact ⟨[], by simp [h], by simp⟩

theorem run_sound (r : Re) :
    ∀ (s rest : List Char), rest ∈ r.run s → ∃ m, s = m ++ rest ∧ r.Matches m := by
  induction r with
  | eps =>
    intro s rest h
    simp only [Re.run, List.mem_singleton] at h
    exact ⟨[], by simp [h], rfl⟩
  | set p =>
    intro s rest h
    cases s with
    | nil => simp [Re.run] at h
    | cons c s =>
      simp only [Re.run] at h
      by_cases hp : p c = true
      · simp only [hp, if_true, List.mem_singleton] at h
        exact ⟨[c], by simp [h], c, rfl, hp⟩
      · simp [hp] at h
  | seq a b iha ihb =>
    intro s rest h
    simp only [Re.run, List.mem_flatMap] at h
    obtain ⟨mid, hmid, hrest⟩ := h
    obtain ⟨m1, e1, h1⟩ := iha s mid hmid
    obtain ⟨m2, e2, h2⟩ := ihb mid rest hrest
    exact ⟨m1 ++ m2, by rw [e1, e2, List.append_assoc], m1, m2, rfl, h1, h2⟩
  | alt a b iha ihb =>
    intro s rest h
    simp only [Re.run, List.mem_append] at h
    rcases h with h | h
    · obtain ⟨m, e, hm⟩ := iha s rest h
      exact ⟨m, e, Or.inl hm⟩
    · obtain ⟨m, e, hm⟩ := ihb s rest h
      exact ⟨m, e, Or.inr hm⟩
  | opt a iha =>
    intro s rest h
    simp only [Re.run, List.mem_append, List.mem_singleton] at h
    rcases h with h | h
    · obtain ⟨m, e, hm⟩ := iha s rest h
      exact ⟨m, e, Or.inr hm⟩
    · exact ⟨[], by simp [h], Or.inl rfl⟩
  | star p =>
    intro s rest h
    simp only [Re.run] at h
    exact starRun_sound p s rest h

theorem matchAt_sound {r : Re} {s m rest : List Char} (h : r.matchAt s = some (m, rest)) :
    s = m ++ rest ∧ r.Matches m := by
  unfold Re.matchAt at h
  cases hr : r.run s with
  | nil => simp [hr] at h
  | cons x xs =>
    simp only [hr, Option.some.injEq, Prod.mk.injEq] at h
    obtain ⟨m2, e, hm⟩ := run_sound r s x (by rw [hr]; simp)
    obtain ⟨h1, h2⟩ := h
    subst h2
    have : m = m2 := by
      rw [← h1, e]
      simp
    subst this
    exact ⟨e, hm⟩

theorem findAllFuel_sound (r : Re) :
    ∀ (fuel : Nat) (s m : List Char), m ∈ findAllFuel r fuel s →
      ∃ pre post, s = pre ++ m ++ post ∧ r.Matches m := by
  intro fuel
  induction fuel with
  | zero => intro s m h; cases s <;> simp [findAllFuel] at h
  | succ n ih =>
    intro s m h
    cases s with
    | nil => simp [findAllFuel] at h
    | cons c s =>
      simp only [findAllFuel] at h
      have skip : m ∈ findAllFuel r n s → ∃ pre post, c :: s = pre ++ m ++ post ∧ r.Matches m := by
        intro h2
        obtain ⟨pre, post, e, hm⟩ := ih s m h2
        exact ⟨c :: pre, post, by simp [e], hm⟩
      cases hma : r.matchAt (c :: s) with
      | none =>
        simp only [hma] at h
        exact skip h
      | some pr =>
        obtain ⟨mt, rest⟩ := pr
        cases mt with
        | nil =>
          simp only [hma] at h
          exact skip h
        | cons x m2 =>
          simp only [hma, List.mem_cons] at h
          obtain ⟨e, hm⟩ := matchAt_sound hma
          simp only [List.cons_append, List.cons.injEq] at e
          obtain ⟨ecx, es⟩ := e
          subst ecx
          rcases h with h | h
          · subst h
            exact ⟨[], rest, by simp [es], hm⟩
          · obtain ⟨pre, post, e2, hm2⟩ := ih rest m h
            exact ⟨c :: m2 ++ pre, post, by simp [es, e2], hm2⟩

theorem chr_matches {c : Char} {m : List Char} (h : (Re.chr c).Matches m) : m = [c] := by
  obtain ⟨d, hd, hp⟩ := h
  simp only [beq_iff_eq] at hp
  rw [hd, hp]

theorem lit_matches :
    ∀ (cs m : List Char), (Re.lit cs).Matches m → m = cs := by
  intro cs
  induction cs with
  | nil => intro m h; exact h
  | cons c cs ih =>
    intro m h
    obtain ⟨m1, m2, e, h1, h2⟩ := h
    rw [e, chr_matches h1, ih m2 h2]
    rfl

theorem hostPattern_matches :
    ∀ (H : List Char) (re : Re), hostPattern H = some re → ∀ m, re.Matches m →
      List.Forall₂ (fun c d => c ≠ '.' → d = c) H m := by
  intro H
  induction H with
  | nil =>
    intro re h m hm
    simp only [hostPattern, Option.some.injEq] at h
    subst h
    have : m = [] := hm
    subst this
    exact List.Forall₂.nil
  | cons c cs ih =>
    intro re h m hm
    simp only [hostPattern] at h
    by_cases hc : c ∈ metaChars
    · simp [hc] at h
    · simp only [hc, if_false, Option.map_eq_some'] at h
      obtain ⟨re2, h2, e⟩ := h
      subst e
      obtain ⟨m1, m2, e, h1, h3⟩ := hm
      subst e
      by_cases hd : c = '.'
      · simp only [hd, if_true] at h1
        obtain ⟨d, hd1, _⟩ := h1
        subst hd1
        exact List.Forall₂.cons (fun hne => absurd hd hne) (ih re2 h2 m2 h3)
      · simp only [hd, if_false] at h1
        rw [chr_matches h1]
        exact List.Forall₂.cons (fun _ => rfl) (ih re2 h2 m2 h3)

theorem forall₂_no_dot :
    ∀ (H h : List Char), List.Forall₂ (fun c d => c ≠ '.' → d = c) H h →
      (∀ c ∈ H, c ≠ '.') → h = H := by
  intro H h hf
  induction hf with
  | nil => intro _; rfl
  | cons hab _ ih =>
    intro hall
    rw [hab (hall _ (List.mem_cons_self _ _)),
      ih (fun c hc => hall c (List.mem_cons_of_mem _ hc))]

theorem isLinkEnd_spec {c : Char} (h : isLinkEnd c = true) :
    isLinkChar c = true ∧ c ≠ '.' ∧ c ≠ ',' ∧ c ≠ ':' := by
  refine ⟨?_, ?_, ?_, ?_⟩
  · simp only [isLinkEnd, isLinkChar, Bool.or_eq_true, decide_eq_true_eq, List.mem_cons,
      List.mem_singleton, List.not_mem_nil, or_false] at h ⊢
    rcases h with h | h
    · exact Or.inl h
    · right
      rcases h with h | h | h | h | h | h | h | h | h | h | h <;> simp [h]
  · intro e; subst e; revert h; decide
  · intro e; subst e; revert h; decide
  · intro e; subst e; revert h; decide

theorem validLink_matches {h : Re} {m : List Char} (hm : (validLink h).Matches m) :
    ∃ (scheme : String) (hostText tail : List Char),
      scheme ∈ ["http", "ftp", "https"] ∧
      m = scheme.data ++ "://".data ++ hostText ++ tail ∧
      h.Matches hostText ∧
      (∀ c ∈ tail, isLinkChar c = true) ∧
      (tail = [] ∨ ∃ front c, tail = front ++ [c] ∧ isLinkEnd c = true) := by
  obtain ⟨m1, r1, e1, hs, m2, r2, e2, hsep, m3, m4, e3, hh, ht⟩ := hm
  have hsep2 := lit_matches _ _ hsep
  have hscheme : ∃ scheme : String, scheme ∈ ["http", "ftp", "https"] ∧ m1 = scheme.data := by
    rcases hs with hs | hs | hs
    · exact ⟨"http", by simp, lit_matches _ _ hs⟩
    · exact ⟨"ftp", by simp, lit_matches _ _ hs⟩
    · exact ⟨"https", by simp, lit_matches _ _ hs⟩
  obtain ⟨scheme, hmem, hm1⟩ := hscheme
  refine ⟨scheme, m3, m4, hmem, ?_, hh, ?_, ?_⟩
  · rw [e1, e2, e3, hm1, hsep2]
    simp
  · rcases ht with ht | ⟨t1, t2, e, hstar, c, hc, hend⟩
    · rw [ht]; simp
    · intro d hd
      rw [e, hc] at hd
      simp only [List.mem_append, List.mem_singleton] at hd
      rcases hd with hd | hd
      · exact hstar d hd
      · rw [hd]; exact (isLinkEnd_spec hend).1
  · rcases ht with ht | ⟨t1, t2, e, _, c, hc, hend⟩
    · exact Or.inl ht
    · exact Or.inr ⟨t1, c, by rw [e, hc], hend⟩

/-! ## The link extractor -/

set_option maxRecDepth 100000 in
/-- Claim C5: on the body of `TestLinkParserFunc`, the extractor for host
`mydomain.com` returns the three links on that host, in order of appearance,
and no link for `not.mydomain.com`. -/
theorem parseLinks_test_body :
    (ParseLinksFunc "mydomain.com").map (fun p => p "mydomain.com" linksToParse) =
      some ["https://mydomain.com/",
            "https://mydomain.com/path/to/content?with=query#and-heading",
            "http://mydomain.com/path/to/content?with=query#and-heading"] := by
  decide

set_option maxRecDepth 100000 in
/-- Claim C4, as stated, fails: for the host `mydomain.com` the extractor
returns `http://mydomainxcom/`, in which the host is not `mydomain.com` (the
dot of the host is read as a wildcard), and `http://mydomain.com.evil.org/`,
a link on the host `mydomain.com.evil.org`. -/
theorem parseLinks_other_host :
    (ParseLinksFunc "mydomain.com").map
        (fun p => p "mydomain.com" "http://mydomainxcom/ http://mydomain.com.evil.org/") =
      some ["http://mydomainxcom/", "http://mydomain.com.evil.org/"] ∧
    hostOf "http://mydomainxcom/" = "mydomainxcom" ∧
    hostOf "http://mydomain.com.evil.org/" = "mydomain.com.evil.org" := by
  decide

/-- Claim C4, amended: every string returned by the extractor for host `H` is
a substring of the body made of a scheme `http`, `ftp` or `https`, then `://`,
then a text as long as `H` that agrees with `H` at every character of `H`
other than a dot (so it is `H` itself when `H` has no dot), then a possibly
empty run of characters of the class `[\w.,@?^=%&:/~+#-]` that does not end in
`.`, `,` or `:`. Nothing is said of what stands at a dot of `H`, nor that
the host of the link ends where `H` ends. -/
theorem parseLinks_form (H : String) (p : LinkParser) (hp : ParseLinksFunc H = some p)
    (host body link : String) (hl : link ∈ p host body) :
    ∃ (before after : List Char) (scheme : String) (hostText tail : List Char),
      body.data = before ++ link.data ++ after ∧
      scheme ∈ ["http", "ftp", "https"] ∧
      link.data = scheme.data ++ "://".data ++ hostText ++ tail ∧
      List.Forall₂ (fun c d => c ≠ '.' → d = c) H.data hostText ∧
      ((∀ c ∈ H.data, c ≠ '.') → hostText = H.data) ∧
      (∀ c ∈ tail, isLinkChar c = true) ∧
      (tail = [] ∨ ∃ front c, tail = front ++ [c] ∧ isLinkEnd c = true ∧
        c ≠ '.' ∧ c ≠ ',' ∧ c ≠ ':') := by
  unfold ParseLinksFunc at hp
  cases hh : hostPattern H.data with
  | none => simp [hh] at hp
  | some re =>
    simp only [hh, Option.map_some', Option.some.injEq] at hp
    subst hp
    simp only [FindAllString, List.mem_map] at hl
    obtain ⟨m, hm, e⟩ := hl
    subst e
    obtain ⟨before, after, hb, hmatch⟩ := findAllFuel_sound _ _ _ _ hm
    obtain ⟨scheme, hostText, tail, hsch, hform, hhost, htail, hend⟩ :=
      validLink_matches hmatch
    have hf := hostPattern_matches H.data re hh hostText hhost
    refine ⟨before, after, scheme, hostText, tail, hb, hsch, hform, hf,
      forall₂_no_dot _ _ hf, htail, ?_⟩
    rcases hend with hend | ⟨front, c, e, hc⟩
    · exact Or.inl hend
    · exact Or.inr ⟨front, c, e, hc, (isLinkEnd_spec hc).2⟩

set_option maxRecDepth 100000 in
/-- Instance of `parseLinks_form`: the first link of the test body. -/
theorem parseLinks_form_witness :
    ParseLinksFunc "mydomain.com" = some testParser ∧
    "https://mydomain.com/" ∈ testParser "mydomain.com" linksToParse ∧
    ∃ (before after : List Char) (scheme : String) (hostText tail : List Char),
      linksToParse.data = before ++ "https://mydomain.com/".data ++ after ∧
      scheme ∈ ["http", "ftp", "https"] ∧
      "https://mydomain.com/".data = scheme.data ++ "://".data ++ hostText ++ tail ∧
      List.Forall₂ (fun c d => c ≠ '.' → d = c) "mydomain.com".data hostText ∧
      ((∀ c ∈ "mydomain.com".data, c ≠ '.') → hostText = "mydomain.com".data) ∧
      (∀ c ∈ tail, isLinkChar c = true) ∧
      (tail = [] ∨ ∃ front c, tail = front ++ [c] ∧ isLinkEnd c = true ∧
        c ≠ '.' ∧ c ≠ ',' ∧ c ≠ ':') :=
  ⟨rfl, by decide,
    parseLinks_form "mydomain.com" testParser rfl "mydomain.com" linksToParse
      "https://mydomain.com/" (by decide)⟩

theorem parseLinksFunc_eq_with (host : String) :
    ParseLinksFunc host =
      ParseLinksFuncWith
        (fun _ => (hostPattern host.data).map
          (fun h => ⟨fun body => FindAllString (validLink h) body⟩)) host := by
  unfold ParseLinksFunc ParseLinksFuncWith
  cases hostPattern host.data <;> rfl

theorem links_host_irrelevant (p : LinkParser) (key : ∀ h2 h3 body, p h2 body = p h3 body)
    (get : String → GetOutcome) (parse1 parse2 : String → Except Error String)
    (u hostA hostB : String) (hA : parse1 u = .ok hostA) (hB : parse2 u = .ok hostB) :
    ResourceGetter.Links ⟨p⟩ ⟨get, parse1⟩ u = ResourceGetter.Links ⟨p⟩ ⟨get, parse2⟩ u := by
  unfold ResourceGetter.Links
  simp only [hA, hB]
  cases get u with
  | failed err => rfl
  | response code body =>
    cases body with
    | error e => rfl
    | ok b => simp only [key hostA hostB b]

theorem with_ignores_host (MustCompile : String → Option Regexp) (h1 : String)
    (p : LinkParser) (hp : ParseLinksFuncWith MustCompile h1 = some p) :
    ∀ h2 h3 body, p h2 body = p h3 body := by
  unfold ParseLinksFuncWith at hp
  cases hc : MustCompile (linkPattern h1) with
  | none => simp [hc] at hp
  | some re =>
    simp only [hc, Option.map_some', Option.some.injEq] at hp
    subst hp
    intro h2 h3 body
    rfl

/-- Claim C10: for every host `h1`, whatever pattern `regexp.MustCompile`
compiles for it, the parser built by `ParseLinksFunc(h1)` does not depend on
the host it is called with, so the host that `ResourceGetter.Links` takes from
the fetched URL has no effect on the links returned; the same holds of the
parser built from the embedded pattern. -/
theorem parseLinksFunc_ignores_host (h1 : String) (p : LinkParser) :
    (∀ MustCompile : String → Option Regexp, ParseLinksFuncWith MustCompile h1 = some p →
      (∀ h2 body, p h2 body = p h1 body) ∧
      (∀ (get : String → GetOutcome) (parse1 parse2 : String → Except Error String)
          (u hostA hostB : String), parse1 u = .ok hostA → parse2 u = .ok hostB →
          ResourceGetter.Links ⟨p⟩ ⟨get, parse1⟩ u =
            ResourceGetter.Links ⟨p⟩ ⟨get, parse2⟩ u)) ∧
    (ParseLinksFunc h1 = some p →
      (∀ h2 body, p h2 body = p h1 body) ∧
      (∀ (get : String → GetOutcome) (parse1 parse2 : String → Except Error String)
          (u hostA hostB : String), parse1 u = .ok hostA → parse2 u = .ok hostB →
          ResourceGetter.Links ⟨p⟩ ⟨get, parse1⟩ u =
            ResourceGetter.Links ⟨p⟩ ⟨get, parse2⟩ u)) := by
  have general : ∀ MustCompile : String → Option Regexp,
      ParseLinksFuncWith MustCompile h1 = some p →
      (∀ h2 body, p h2 body = p h1 body) ∧
      (∀ (get : String → GetOutcome) (parse1 parse2 : String → Except Error String)
          (u hostA hostB : String), parse1 u = .ok hostA → parse2 u = .ok hostB →
          ResourceGetter.Links ⟨p⟩ ⟨get, parse1⟩ u =
            ResourceGetter.Links ⟨p⟩ ⟨get, parse2⟩ u) := by
    intro MustCompile hp
    have key := with_ignores_host MustCompile h1 p hp
    exact ⟨fun h2 body => key h2 h1 body,
      fun get parse1 parse2 u hostA hostB hA hB =>
        links_host_irrelevant p key get parse1 parse2 u hostA hostB hA hB⟩
  refine ⟨general, ?_⟩
  intro hp
  rw [parseLinksFunc_eq_with] at hp
  exact general _ hp

/-- Instance of `parseLinksFunc_ignores_host` for the host `[::1]:8080`, whose
brackets are a character class of the pattern: the parser finds
`http://::8080/y` whatever host it is called with. -/
theorem parseLinksFunc_ignores_host_witness :
    ParseLinksFuncWith ipv6Compile "[::1]:8080" = some ipv6Parser ∧
      ipv6Parser "[::1]:8080" "http://::8080/y" = ["http://::8080/y"] ∧
      ∀ h2 body, ipv6Parser h2 body = ipv6Parser "[::1]:8080" body :=
  ⟨by simp only [ParseLinksFuncWith, ipv6Compile, if_true, Option.map_some']; rfl, by decide,
    ((parseLinksFunc_ignores_host "[::1]:8080" ipv6Parser).1 ipv6Compile
      (by simp only [ParseLinksFuncWith, ipv6Compile, if_true, Option.map_some']; rfl)).1⟩

/-! ## The gatekeeper loop -/

theorem gatekeeper_fst_mem (v : List String) (link u : String) :
    u ∈ (gatekeeper v link).1 ↔ u = link ∨ u ∈ v := by
  unfold gatekeeper
  by_cases h : link ∈ v
  · simp only [h, if_true]
    constructor
    · exact fun hu => Or.inr hu
    · rintro (rfl | hu)
      · exact h
      · exact hu
  · simp [h]

theorem gatekeeper_snd (v : List String) (link : String) :
    (gatekeeper v link).2 = if link ∈ v then none else some link := by
  unfold gatekeeper
  by_cases h : link ∈ v <;> simp [h]

theorem gatekeeperLoop_fst_mem (s : List String) :
    ∀ (v : List String) (u : String), u ∈ (gatekeeperLoop v s).1 ↔ u ∈ v ∨ u ∈ s := by
  induction s with
  | nil => intro v u; simp [gatekeeperLoop]
  | cons x xs ih =>
    intro v u
    simp only [gatekeeperLoop, ih, gatekeeper_fst_mem, List.mem_cons]
    tauto

theorem mem_firstOccurrences (s : List String) :
    ∀ u, u ∈ firstOccurrences s ↔ u ∈ s := by
  induction s with
  | nil => intro u; simp [firstOccurrences]
  | cons x xs ih =>
    intro u
    simp only [firstOccurrences, List.mem_cons, List.mem_filter, ih, decide_eq_true_eq]
    by_cases h : u = x <;> simp [h]

theorem nodup_firstOccurrences (s : List String) : (firstOccurrences s).Nodup := by
  induction s with
  | nil => simp [firstOccurrences]
  | cons x xs ih =>
    simp only [firstOccurrences, List.nodup_cons, List.mem_filter, decide_eq_true_eq]
    exact ⟨fun h => h.2 rfl, ih.filter _⟩

theorem gatekeeperLoop_snd (s : List String) :
    ∀ v : List String,
      (gatekeeperLoop v s).2 = (firstOccurrences s).filter (fun y => y ∉ v) := by
  induction s with
  | nil => intro v; simp [gatekeeperLoop, firstOccurrences]
  | cons x xs ih =>
    intro v
    simp only [gatekeeperLoop, ih, gatekeeper_snd, firstOccurrences]
    by_cases h : x ∈ v
    · have h1 : (gatekeeper v x).1 = v := by simp [gatekeeper, h]
      simp only [h, if_true, Option.toList_none, List.nil_append, h1]
      rw [List.filter_cons]
      simp only [h, not_true_eq_false, decide_False, Bool.false_eq_true, if_false,
        List.filter_filter]
      apply List.filter_congr
      intro y _
      by_cases hy : y ∈ v
      · simp [hy]
      · have : y ≠ x := fun e => hy (e ▸ h)
        simp [hy, this]
    · have h1 : (gatekeeper v x).1 = x :: v := by simp [gatekeeper, h]
      simp only [h, if_false, Option.toList_some, List.singleton_append, h1]
      rw [List.filter_cons]
      simp only [h, not_false_eq_true, decide_True, if_true, List.filter_filter,
        List.cons.injEq, true_and]
      apply List.filter_congr
      intro y _
      by_cases hy : y ∈ v <;> by_cases hx : y = x <;> simp [hy, hx]

/-- Claim C9: run from an empty `visited` map over any finite sequence of
received URLs, the gatekeeper hands a URL to a worker and marks it exactly
when it has not occurred earlier in the sequence; the dispatched URLs are the
first occurrences of the sequence in arrival order, and at the end the keys
of `visited` are the URLs of the sequence, which are the dispatched URLs. -/
theorem gatekeeper_first_occurrences (s : List String) :
    (∀ (before : List String) (link : String),
      (gatekeeper (gatekeeperLoop [] before).1 link).2 =
        (if link ∈ before then none else some link) ∧
      link ∈ (gatekeeper (gatekeeperLoop [] before).1 link).1) ∧
    (gatekeeperLoop [] s).2 = firstOccurrences s ∧
    (∀ u, u ∈ (gatekeeperLoop [] s).1 ↔ u ∈ s) ∧
    (∀ u, u ∈ (gatekeeperLoop [] s).1 ↔ u ∈ (gatekeeperLoop [] s).2) := by
  have hsnd : (gatekeeperLoop [] s).2 = firstOccurrences s := by
    rw [gatekeeperLoop_snd]; simp
  refine ⟨?_, hsnd, ?_, ?_⟩
  · intro before link
    refine ⟨?_, (gatekeeper_fst_mem _ _ _).2 (Or.inl rfl)⟩
    rw [gatekeeper_snd]
    have : link ∈ (gatekeeperLoop [] before).1 ↔ link ∈ before := by
      rw [gatekeeperLoop_fst_mem]; simp
    by_cases h : link ∈ before
    · simp [h, this.2 h]
    · have h2 : link ∉ (gatekeeperLoop [] before).1 := fun e => h (this.1 e)
      simp [h, h2]
  · intro u; rw [gatekeeperLoop_fst_mem]; simp
  · intro u; rw [hsnd, mem_firstOccurrences, gatekeeperLoop_fst_mem]; simp

/-! ## The crawl machine: moves and list facts -/

theorem step_sound {g : LinkGetter} {s t : State} {a : Action}
    (h : step g s a = some t) : Step g s t := by
  have hpan : s.panicked = false := by
    cases hp : s.panicked with
    | false => rfl
    | true => cases a <;> simp [step, hp] at h
  obtain ⟨caller, inbox, visited, workers, watcher, panicked, log⟩ := s
  simp only at hpan
  subst hpan
  cases a with
  | seed =>
    cases caller with
    | none => simp [step] at h
    | some url =>
      cases inbox with
      | some l => simp [step] at h
      | none =>
        simp only [step, Bool.false_eq_true, if_false, Option.some.injEq] at h
        subst h
        exact Step.seed rfl rfl rfl
  | gate =>
    cases inbox with
    | none => simp [step] at h
    | some link =>
      simp only [step, Bool.false_eq_true, if_false, Option.some.injEq] at h
      subst h
      by_cases hv : link ∈ visited
      · have := Step.skip (g := g) (s := ⟨caller, some link, visited, workers, watcher, false, log⟩)
          rfl rfl hv
        simpa [gatekeeper, hv] using this
      · have := Step.accept (g := g) (s := ⟨caller, some link, visited, workers, watcher, false, log⟩)
          rfl rfl hv
        simpa [gatekeeper, hv] using this
  | links i =>
    simp only [step, Bool.false_eq_true, if_false] at h
    split at h
    · next url hw =>
      cases h
      exact Step.links rfl hw
    · cases h
  | send i =>
    simp only [step, Bool.false_eq_true, if_false] at h
    split at h
    · next url link ops hw =>
      cases inbox with
      | some l => simp at h
      | none =>
        simp only [Option.some.injEq] at h
        subst h
        exact Step.sendIn rfl hw rfl
    · next url res ops hw =>
      split at h
      · next hx =>
        cases h
        exact Step.panic rfl hw hx
      · next hx =>
        cases h
        exact Step.deliver rfl hw hx
    · cases h
  | done =>
    simp only [step, Bool.false_eq_true, if_false] at h
    split at h
    · next hx =>
      cases h
      exact Step.done rfl hx
    · cases h
  | close =>
    simp only [step, Bool.false_eq_true, if_false] at h
    split at h
    · next hx =>
      cases h
      exact Step.close rfl hx
    · cases h

theorem mem_of_get? {α : Type} {l : List α} {i : Nat} {a : α} (h : l[i]? = some a) :
    a ∈ l := by
  induction l generalizing i with
  | nil => simp at h
  | cons x xs ih =>
    cases i with
    | zero => simp at h; simp [h]
    | succ j => simp at h; exact List.mem_cons_of_mem _ (ih h)

theorem mem_set_cases {α : Type} {l : List α} {i : Nat} {a x : α}
    (h : x ∈ l.set i a) : x = a ∨ x ∈ l := by
  induction l generalizing i with
  | nil => simp at h
  | cons y ys ih =>
    cases i with
    | zero =>
      simp only [List.set_cons_zero, List.mem_cons] at h
      rcases h with h | h
      · exact Or.inl h
      · exact Or.inr (List.mem_cons_of_mem _ h)
    | succ j =>
      simp only [List.set_cons_succ, List.mem_cons] at h
      rcases h with h | h
      · exact Or.inr (h ▸ List.mem_cons_self _ _)
      · rcases ih h with h | h
        · exact Or.inl h
        · exact Or.inr (List.mem_cons_of_mem _ h)

theorem mem_set_self {α : Type} {l : List α} {i : Nat} {a b : α}
    (h : l[i]? = some b) : a ∈ l.set i a := by
  induction l generalizing i with
  | nil => simp at h
  | cons y ys ih =>
    cases i with
    | zero => simp
    | succ j =>
      simp only [List.getElem?_cons_succ] at h
      simp only [List.set_cons_succ, List.mem_cons]
      exact Or.inr (ih h)

theorem mem_set_of_ne {α : Type} {l : List α} {i : Nat} {a b x : α}
    (h : l[i]? = some b) (hx : x ∈ l) (hne : x ≠ b) : x ∈ l.set i a := by
  induction l generalizing i with
  | nil => simp at h
  | cons y ys ih =>
    cases i with
    | zero =>
      simp only [List.getElem?_cons_zero, Option.some.injEq] at h
      subst h
      simp only [List.mem_cons] at hx
      rcases hx with hx | hx
      · exact absurd hx hne
      · simp [hx]
    | succ j =>
      simp only [List.getElem?_cons_succ] at h
      simp only [List.mem_cons] at hx
      simp only [List.set_cons_succ, List.mem_cons]
      rcases hx with hx | hx
      · exact Or.inl hx
      · exact Or.inr (ih h hx)

theorem map_url_set {l : List Worker} {i : Nat} {url : String} {t1 t2 : Option (List Op)}
    (h : l[i]? = some ⟨url, t1⟩) :
    (l.set i ⟨url, t2⟩).map (fun w => w.url) = l.map (fun w => w.url) := by
  induction l generalizing i with
  | nil => simp at h
  | cons y ys ih =>
    cases i with
    | zero =>
      simp only [List.getElem?_cons_zero, Option.some.injEq] at h
      subst h
      simp
    | succ j =>
      simp only [List.getElem?_cons_succ] at h
      simp [ih h]

theorem eq_of_url_eq {l : List Worker} (hn : (l.map (fun w => w.url)).Nodup)
    {a b : Worker} (ha : a ∈ l) (hb : b ∈ l) (h : a.url = b.url) : a = b :=
  List.inj_on_of_nodup_map hn ha hb h

theorem mem_results {r : Result} (l : List Event) : r ∈ results l ↔ Event.result r ∈ l := by
  induction l with
  | nil => simp [results]
  | cons e es ih => cases e <;> simp [results, ih]

theorem results_append (l1 l2 : List Event) : results (l1 ++ l2) = results l1 ++ results l2 := by
  induction l1 with
  | nil => rfl
  | cons e es ih => cases e <;> simp [results, ih]

theorem fetched_append (l1 l2 : List Event) : fetched (l1 ++ l2) = fetched l1 ++ fetched l2 := by
  induction l1 with
  | nil => rfl
  | cons e es ih => cases e <;> simp [fetched, ih]

theorem mem_sendLinks {o : Op} {l : List String} : o ∈ sendLinks l ↔ ∃ x ∈ l, o = .sendIn x := by
  induction l with
  | nil => simp [sendLinks]
  | cons x xs ih => simp [sendLinks, ih]

theorem run_induction {g : LinkGetter} (P : State → Prop)
    (hstep : ∀ s t, P s → Step g s t → P t) :
    ∀ (sched : List Action) (s t : State), P s → run g s sched = some t → P t := by
  intro sched
  induction sched with
  | nil =>
    intro s t hs h
    simp only [run, Option.some.injEq] at h
    exact h ▸ hs
  | cons a as ih =>
    intro s t hs h
    simp only [run] at h
    cases hst : step g s a with
    | none => simp [hst] at h
    | some m =>
      simp only [hst, Option.some_bind] at h
      exact ih m t (hstep s m hs (step_sound hst)) h

/-! ## Invariants of the crawl -/

theorem inv_init (g : LinkGetter) (seed : String) : Inv g seed (Crawl seed) where
  nodup := by simp [dispatched, Crawl]
  visited_iff := by simp [dispatched, Crawl]
  shape := by simp [Crawl]
  closure := by simp [Crawl]
  caller_seed := by intro x hx; simp [Crawl] at hx; exact hx.symm
  seed_in := by simp [Crawl]
  reach_visited := by simp [Crawl]
  reach_inbox := by simp [Crawl]
  res_nodup := by simp [Crawl, results]
  res_fin := by simp [Crawl, results]
  fin_res := by simp [Crawl]
  fetched_nodup := by simp [Crawl, fetched]
  fetched_started := by simp [Crawl, fetched]

theorem doWork_eq (g : LinkGetter) (url : String) :
    doWork g url = sendLinks (g url).1 ++ [.sendOut (resultOf g url)] := rfl

theorem shape_sendIn {g : LinkGetter} {url link : String} {ops : List Op}
    (h : Op.sendIn link :: ops = [] ∨ ∃ ls, Op.sendIn link :: ops =
      sendLinks ls ++ [.sendOut (resultOf g url)] ∧ ∀ l ∈ ls, l ∈ (g url).1) :
    link ∈ (g url).1 ∧ ∃ ls, ops = sendLinks ls ++ [.sendOut (resultOf g url)] ∧
      ∀ l ∈ ls, l ∈ (g url).1 := by
  rcases h with h | ⟨ls, h, hls⟩
  · cases h
  · cases ls with
    | nil => simp [sendLinks] at h
    | cons x xs =>
      simp only [sendLinks, List.cons_append, List.cons.injEq, Op.sendIn.injEq] at h
      refine ⟨h.1 ▸ hls x (List.mem_cons_self _ _), xs, h.2, ?_⟩
      intro l hl
      exact hls l (List.mem_cons_of_mem _ hl)

theorem shape_sendOut {g : LinkGetter} {url : String} {res : Result} {ops : List Op}
    (h : Op.sendOut res :: ops = [] ∨ ∃ ls, Op.sendOut res :: ops =
      sendLinks ls ++ [.sendOut (resultOf g url)] ∧ ∀ l ∈ ls, l ∈ (g url).1) :
    res = resultOf g url ∧ ops = [] := by
  rcases h with h | ⟨ls, h, _⟩
  · cases h
  · cases ls with
    | nil =>
      simp only [sendLinks, List.nil_append, List.cons.injEq, Op.sendOut.injEq] at h
      exact h
    | cons x xs => simp [sendLinks] at h

theorem inv_seed {g : LinkGetter} {seed : String} {s : State} {url : String}
    (h : Inv g seed s) (hc : s.caller = some url) (hi : s.inbox = none) :
    Inv g seed { s with caller := none, inbox := some url } where
  nodup := h.nodup
  visited_iff := h.visited_iff
  shape := h.shape
  closure := by
    intro w hw ops ht l hl
    rcases h.closure w hw ops ht l hl with a | a | a
    · exact Or.inl a
    · exact Or.inr (Or.inl a)
    · rw [hi] at a; cases a
  caller_seed := by intro x hx; cases hx
  seed_in := by
    intro _
    exact Or.inr (by rw [h.caller_seed url hc])
  reach_visited := h.reach_visited
  reach_inbox := by
    intro l hl
    simp only [Option.some.injEq] at hl
    rw [← hl, h.caller_seed url hc]
    exact Relation.ReflTransGen.refl
  res_nodup := h.res_nodup
  res_fin := h.res_fin
  fin_res := h.fin_res
  fetched_nodup := h.fetched_nodup
  fetched_started := h.fetched_started

theorem inv_skip {g : LinkGetter} {seed : String} {s : State} {link : String}
    (h : Inv g seed s) (hi : s.inbox = some link) (hv : link ∈ s.visited) :
    Inv g seed { s with inbox := none } where
  nodup := h.nodup
  visited_iff := h.visited_iff
  shape := h.shape
  closure := by
    intro w hw ops ht l hl
    rcases h.closure w hw ops ht l hl with a | a | a
    · exact Or.inl a
    · exact Or.inr (Or.inl a)
    · rw [hi] at a
      cases a
      exact Or.inr (Or.inl hv)
  caller_seed := h.caller_seed
  seed_in := by
    intro hc
    rcases h.seed_in hc with a | a
    · exact Or.inl a
    · rw [hi] at a
      cases a
      exact Or.inl hv
  reach_visited := h.reach_visited
  reach_inbox := by intro l hl; cases hl
  res_nodup := h.res_nodup
  res_fin := h.res_fin
  fin_res := h.fin_res
  fetched_nodup := h.fetched_nodup
  fetched_started := h.fetched_started

theorem inv_accept {g : LinkGetter} {seed : String} {s : State} {link : String}
    (h : Inv g seed s) (hi : s.inbox = some link) (hv : link ∉ s.visited) :
    Inv g seed { s with inbox := none, visited := link :: s.visited,
                        workers := s.workers ++ [⟨link, none⟩] } where
  nodup := by
    have hd : link ∉ dispatched s := fun e => hv ((h.visited_iff link).2 e)
    have hn := h.nodup
    simp only [dispatched, List.map_append, List.map_cons, List.map_nil] at hd hn ⊢
    exact List.Nodup.append hn (List.nodup_singleton _) (by simpa using hd)
  visited_iff := by
    intro u
    have := h.visited_iff u
    simp only [dispatched, List.map_append, List.map_cons, List.map_nil, List.mem_append,
      List.mem_singleton, List.mem_cons] at this ⊢
    rw [this]
    tauto
  shape := by
    intro w hw ops ht
    simp only [List.mem_append, List.mem_singleton] at hw
    rcases hw with hw | hw
    · exact h.shape w hw ops ht
    · subst hw; cases ht
  closure := by
    intro w hw ops ht l hl
    simp only [List.mem_append, List.mem_singleton] at hw
    rcases hw with hw | hw
    · rcases h.closure w hw ops ht l hl with a | a | a
      · exact Or.inl a
      · exact Or.inr (Or.inl (List.mem_cons_of_mem _ a))
      · rw [hi] at a
        cases a
        exact Or.inr (Or.inl (List.mem_cons_self _ _))
    · subst hw; cases ht
  caller_seed := h.caller_seed
  seed_in := by
    intro hc
    rcases h.seed_in hc with a | a
    · exact Or.inl (List.mem_cons_of_mem _ a)
    · rw [hi] at a
      cases a
      exact Or.inl (List.mem_cons_self _ _)
  reach_visited := by
    intro u hu
    simp only [List.mem_cons] at hu
    rcases hu with hu | hu
    · subst hu; exact h.reach_inbox _ hi
    · exact h.reach_visited u hu
  reach_inbox := by intro l hl; cases hl
  res_nodup := h.res_nodup
  res_fin := by
    intro r hr
    obtain ⟨h1, w, hw, h2⟩ := h.res_fin r hr
    exact ⟨h1, w, List.mem_append_left _ hw, h2⟩
  fin_res := by
    intro w hw ht
    simp only [List.mem_append, List.mem_singleton] at hw
    rcases hw with hw | hw
    · exact h.fin_res w hw ht
    · subst hw; cases ht
  fetched_nodup := h.fetched_nodup
  fetched_started := by
    intro u hu
    obtain ⟨w, hw, h2⟩ := h.fetched_started u hu
    exact ⟨w, List.mem_append_left _ hw, h2⟩

theorem inv_links {g : LinkGetter} {seed : String} {s : State} {i : Nat} {url : String}
    (h : Inv g seed s) (hw : s.workers[i]? = some ⟨url, none⟩) :
    Inv g seed { s with workers := s.workers.set i ⟨url, some (doWork g url)⟩,
                        log := s.log ++ [.links url] } where
  nodup := by
    have := h.nodup
    simp only [dispatched] at this ⊢
    rwa [map_url_set hw]
  visited_iff := by
    intro u
    have := h.visited_iff u
    simp only [dispatched] at this ⊢
    rwa [map_url_set hw]
  shape := by
    intro w hm ops ht
    rcases mem_set_cases hm with e | hm
    · subst e
      simp only [Option.some.injEq] at ht
      subst ht
      exact Or.inr ⟨(g url).1, doWork_eq g url, fun l hl => hl⟩
    · exact h.shape w hm ops ht
  closure := by
    intro w hm ops ht l hl
    rcases mem_set_cases hm with e | hm
    · subst e
      simp only [Option.some.injEq] at ht
      subst ht
      left
      rw [doWork_eq]
      exact List.mem_append_left _ (mem_sendLinks.2 ⟨l, hl, rfl⟩)
    · exact h.closure w hm ops ht l hl
  caller_seed := h.caller_seed
  seed_in := h.seed_in
  reach_visited := h.reach_visited
  reach_inbox := h.reach_inbox
  res_nodup := by
    have := h.res_nodup
    simpa [results_append, results] using this
  res_fin := by
    intro r hr
    have hr2 : r ∈ results s.log := by simpa [results_append, results] using hr
    obtain ⟨h1, w, hm, h2, h3⟩ := h.res_fin r hr2
    refine ⟨h1, w, mem_set_of_ne hw hm ?_, h2, h3⟩
    intro e; subst e; cases h3
  fin_res := by
    intro w hm ht
    rcases mem_set_cases hm with e | hm
    · subst e
      simp [doWork_eq] at ht
    · have := h.fin_res w hm ht
      simpa [results_append, results] using this
  fetched_nodup := by
    have hn := h.fetched_nodup
    have hnot : url ∉ fetched s.log := by
      intro hu
      obtain ⟨w, hm, h2, h3⟩ := h.fetched_started url hu
      have := eq_of_url_eq h.nodup hm (mem_of_get? hw) h2
      subst this
      exact h3 rfl
    simp only [fetched_append, fetched]
    exact List.Nodup.append hn (List.nodup_singleton _) (by simpa using hnot)
  fetched_started := by
    intro u hu
    simp only [fetched_append, fetched, List.mem_append, List.mem_singleton] at hu
    rcases hu with hu | hu
    · obtain ⟨w, hm, h2, h3⟩ := h.fetched_started u hu
      refine ⟨w, mem_set_of_ne hw hm ?_, h2, h3⟩
      intro e; subst e; exact h3 rfl
    · subst hu
      exact ⟨_, mem_set_self hw, rfl, by simp⟩

theorem inv_sendIn {g : LinkGetter} {seed : String} {s : State} {i : Nat}
    {url link : String} {ops : List Op} (h : Inv g seed s)
    (hw : s.workers[i]? = some ⟨url, some (.sendIn link :: ops)⟩) (hi : s.inbox = none) :
    Inv g seed { s with inbox := some link, workers := s.workers.set i ⟨url, some ops⟩ } where
  nodup := by
    have := h.nodup
    simp only [dispatched] at this ⊢
    rwa [map_url_set hw]
  visited_iff := by
    intro u
    have := h.visited_iff u
    simp only [dispatched] at this ⊢
    rwa [map_url_set hw]
  shape := by
    intro w hm ops2 ht
    rcases mem_set_cases hm with e | hm
    · subst e
      simp only [Option.some.injEq] at ht
      subst ht
      exact Or.inr (shape_sendIn (h.shape _ (mem_of_get? hw) _ rfl)).2
    · exact h.shape w hm ops2 ht
  closure := by
    intro w hm ops2 ht l hl
    rcases mem_set_cases hm with e | hm
    · subst e
      simp only [Option.some.injEq] at ht
      subst ht
      rcases h.closure _ (mem_of_get? hw) _ rfl l hl with a | a | a
      · simp only [List.mem_cons, Op.sendIn.injEq] at a
        rcases a with a | a
        · subst a; exact Or.inr (Or.inr rfl)
        · exact Or.inl a
      · exact Or.inr (Or.inl a)
      · rw [hi] at a; cases a
    · rcases h.closure w hm ops2 ht l hl with a | a | a
      · exact Or.inl a
      · exact Or.inr (Or.inl a)
      · rw [hi] at a; cases a
  caller_seed := h.caller_seed
  seed_in := by
    intro hc
    rcases h.seed_in hc with a | a
    · exact Or.inl a
    · rw [hi] at a; cases a
  reach_visited := h.reach_visited
  reach_inbox := by
    intro l hl
    simp only [Option.some.injEq] at hl
    subst hl
    have hmem := mem_of_get? hw
    have hurl : url ∈ s.visited := by
      rw [h.visited_iff]
      exact List.mem_map.2 ⟨_, hmem, rfl⟩
    exact Relation.ReflTransGen.tail (h.reach_visited url hurl)
      (shape_sendIn (h.shape _ hmem _ rfl)).1
  res_nodup := h.res_nodup
  res_fin := by
    intro r hr
    obtain ⟨h1, w, hm, h2, h3⟩ := h.res_fin r hr
    refine ⟨h1, w, mem_set_of_ne hw hm ?_, h2, h3⟩
    intro e; subst e; cases h3
  fin_res := by
    intro w hm ht
    rcases mem_set_cases hm with e | hm
    · subst e
      obtain ⟨_, ls, h1, _⟩ := shape_sendIn (h.shape _ (mem_of_get? hw) _ rfl)
      simp only [Option.some.injEq] at ht
      subst ht
      simp at h1
    · exact h.fin_res w hm ht
  fetched_nodup := h.fetched_nodup
  fetched_started := by
    intro u hu
    obtain ⟨w, hm, h2, h3⟩ := h.fetched_started u hu
    by_cases e : w = ⟨url, some (.sendIn link :: ops)⟩
    · subst e
      exact ⟨_, mem_set_self hw, h2, by simp⟩
    · exact ⟨w, mem_set_of_ne hw hm e, h2, h3⟩

theorem inv_deliver {g : LinkGetter} {seed : String} {s : State} {i : Nat}
    {url : String} {res : Result} {ops : List Op} (h : Inv g seed s)
    (hw : s.workers[i]? = some ⟨url, some (.sendOut res :: ops)⟩) :
    Inv g seed { s with workers := s.workers.set i ⟨url, some ops⟩,
                        log := s.log ++ [.result res] } := by
  have hmem := mem_of_get? hw
  obtain ⟨hres, hops⟩ := shape_sendOut (h.shape _ hmem _ rfl)
  subst hops
  exact
  { nodup := by
      have := h.nodup
      simp only [dispatched] at this ⊢
      rwa [map_url_set hw]
    visited_iff := by
      intro u
      have := h.visited_iff u
      simp only [dispatched] at this ⊢
      rwa [map_url_set hw]
    shape := by
      intro w hm ops2 ht
      rcases mem_set_cases hm with e | hm
      · subst e
        simp only [Option.some.injEq] at ht
        exact Or.inl ht.symm
      · exact h.shape w hm ops2 ht
    closure := by
      intro w hm ops2 ht l hl
      rcases mem_set_cases hm with e | hm
      · subst e
        rcases h.closure _ hmem _ rfl l hl with a | a | a
        · simp at a
        · exact Or.inr (Or.inl a)
        · exact Or.inr (Or.inr a)
      · exact h.closure w hm ops2 ht l hl
    caller_seed := h.caller_seed
    seed_in := h.seed_in
    reach_visited := h.reach_visited
    reach_inbox := h.reach_inbox
    res_nodup := by
      have hn := h.res_nodup
      have hnot : url ∉ (results s.log).map (fun r => r.URL) := by
        intro hu
        obtain ⟨r, hr, hru⟩ := List.mem_map.1 hu
        obtain ⟨_, w, hm, h2, h3⟩ := h.res_fin r hr
        have := eq_of_url_eq h.nodup hm hmem (h2.trans hru)
        subst this
        cases h3
      simp only [results_append, results, List.map_append, List.map_cons, List.map_nil]
      refine List.Nodup.append hn (List.nodup_singleton _) ?_
      rw [hres]
      simpa [resultOf] using hnot
    res_fin := by
      intro r hr
      simp only [results_append, results, List.mem_append, List.mem_singleton] at hr
      rcases hr with hr | hr
      · obtain ⟨h1, w, hm, h2, h3⟩ := h.res_fin r hr
        refine ⟨h1, w, mem_set_of_ne hw hm ?_, h2, h3⟩
        intro e; subst e; cases h3
      · subst hr
        rw [hres]
        exact ⟨rfl, _, mem_set_self hw, rfl, rfl⟩
    fin_res := by
      intro w hm ht
      simp only [results_append, results, List.mem_append, List.mem_singleton]
      rcases mem_set_cases hm with e | hm
      · subst e
        exact Or.inr hres.symm
      · exact Or.inl (h.fin_res w hm ht)
    fetched_nodup := by
      have := h.fetched_nodup
      simpa [fetched_append, fetched] using this
    fetched_started := by
      intro u hu
      have hu2 : u ∈ fetched s.log := by simpa [fetched_append, fetched] using hu
      obtain ⟨w, hm, h2, h3⟩ := h.fetched_started u hu2
      by_cases e : w = ⟨url, some [.sendOut res]⟩
      · subst e
        exact ⟨_, mem_set_self hw, h2, by simp⟩
      · exact ⟨w, mem_set_of_ne hw hm e, h2, h3⟩ }

theorem inv_congr {g : LinkGetter} {seed : String} {s t : State} (h : Inv g seed s)
    (h1 : t.caller = s.caller) (h2 : t.inbox = s.inbox) (h3 : t.visited = s.visited)
    (h4 : t.workers = s.workers) (h5 : results t.log = results s.log)
    (h6 : fetched t.log = fetched s.log) : Inv g seed t := by
  obtain ⟨c, i, v, w, x, p, l⟩ := t
  simp only at h1 h2 h3 h4 h5 h6
  subst h1 h2 h3 h4
  exact
  { nodup := h.nodup
    visited_iff := h.visited_iff
    shape := h.shape
    closure := h.closure
    caller_seed := h.caller_seed
    seed_in := h.seed_in
    reach_visited := h.reach_visited
    reach_inbox := h.reach_inbox
    res_nodup := by rw [h5]; exact h.res_nodup
    res_fin := by rw [h5]; exact h.res_fin
    fin_res := by rw [h5]; exact h.fin_res
    fetched_nodup := by rw [h6]; exact h.fetched_nodup
    fetched_started := by rw [h6]; exact h.fetched_started }

theorem inv_step {g : LinkGetter} {seed : String} {s t : State} (h : Inv g seed s)
    (st : Step g s t) : Inv g seed t := by
  cases st with
  | seed hp hc hi => exact inv_seed h hc hi
  | skip hp hi hv => exact inv_skip h hi hv
  | accept hp hi hv => exact inv_accept h hi hv
  | links hp hw => exact inv_links h hw
  | sendIn hp hw hi => exact inv_sendIn h hw hi
  | deliver hp hw hx => exact inv_deliver h hw
  | panic hp hw hx =>
    exact inv_congr h rfl rfl rfl rfl (by simp [results_append, results])
      (by simp [fetched_append, fetched])
  | done hp hx =>
    exact inv_congr h rfl rfl rfl rfl (by simp [results_append, results])
      (by simp [fetched_append, fetched])
  | close hp hx =>
    exact inv_congr h rfl rfl rfl rfl (by simp [results_append, results])
      (by simp [fetched_append, fetched])

theorem inv_run {g : LinkGetter} {seed : String} {sched : List Action} {s : State}
    (h : run g (Crawl seed) sched = some s) : Inv g seed s :=
  run_induction (Inv g seed) (fun _ _ hs st => inv_step hs st) sched _ _ (inv_init g seed) h

/-! ## Dispatch and results -/

theorem sendLinks_eq_map (ls : List String) : sendLinks ls = ls.map Op.sendIn := by
  induction ls with
  | nil => rfl
  | cons x xs ih => simp [sendLinks, ih]

theorem filter_url_eq_singleton {l : List Result} (hn : (l.map (fun r => r.URL)).Nodup)
    {r : Result} (hr : r ∈ l) : l.filter (fun x => x.URL = r.URL) = [r] := by
  induction l with
  | nil => cases hr
  | cons y ys ih =>
    simp only [List.map_cons, List.nodup_cons, List.mem_map, not_exists, not_and] at hn
    simp only [List.mem_cons] at hr
    rcases hr with hr | hr
    · subst hr
      have : ys.filter (fun x => x.URL = r.URL) = [] := by
        rw [List.filter_eq_nil_iff]
        intro x hx
        simpa using hn.1 x hx
      simp [List.filter_cons, this]
    · have hne : ¬ y.URL = r.URL := fun e => hn.1 r hr e.symm
      simp [List.filter_cons, hne, ih hn.2 hr]

/-- Claim C1: whatever sequence of URLs the gatekeeper receives, and in every
execution of `Crawl` for every LinkGetter and seed, the URLs handed to
`go doWork` contain no repetition, and neither do the URLs passed to
`g.Links`. -/
theorem dispatch_at_most_once :
    (∀ arrivals : List String, (gatekeeperLoop [] arrivals).2.Nodup) ∧
    (∀ (g : LinkGetter) (seed : String) (sched : List Action) (s : State),
      run g (Crawl seed) sched = some s →
        (dispatched s).Nodup ∧ (fetched s.log).Nodup ∧
        ∀ u ∈ fetched s.log, u ∈ dispatched s) := by
  constructor
  · intro arrivals
    rw [gatekeeperLoop_snd]
    exact (nodup_firstOccurrences arrivals).filter _
  · intro g seed sched s h
    have hi := inv_run h
    refine ⟨hi.nodup, hi.fetched_nodup, ?_⟩
    intro u hu
    obtain ⟨w, hw, h2, _⟩ := hi.fetched_started u hu
    exact List.mem_map.2 ⟨w, hw, h2⟩

/-- Instance of `dispatch_at_most_once` on `cyclicRun`. -/
theorem dispatch_at_most_once_witness :
    run cyclicGetter (Crawl "a") cyclicRun = some cyclicEnd ∧
      dispatched cyclicEnd = ["a", "b"] ∧ (dispatched cyclicEnd).Nodup :=
  ⟨by decide, by decide,
    (dispatch_at_most_once.2 cyclicGetter "a" cyclicRun cyclicEnd (by decide)).1⟩

/-- Claim C6, as stated, fails: for a LinkGetter that returns a link together
with an error, the Result emitted for `a` has a non-nil error and a non-empty
link sequence. -/
theorem error_result_keeps_links :
    (brokenGetter "a").2 = some "boom" ∧
    (run brokenGetter (Crawl "a") brokenRun).map (fun s => results s.log) =
      some [⟨⟨"a", ["b"]⟩, some "boom"⟩] := by
  decide

/-- Claim C6, amended: every Result that `Crawl` emits carries exactly the links
and the error that `g.Links` returned for its URL; so an error of `g.Links` gives
a non-nil `Err`, and `Links` is empty when `g.Links` returned no link with the
error, as `ResourceGetter.Links` does. -/
theorem result_carries_getter_output (g : LinkGetter) (seed : String)
    (sched : List Action) (s : State) (h : run g (Crawl seed) sched = some s)
    (r : Result) (hr : r ∈ results s.log) :
    r.Links = (g r.URL).1 ∧ r.Err = (g r.URL).2 ∧
    ((g r.URL).2 ≠ none → r.Err ≠ none ∧ ((g r.URL).1 = [] → r.Links = [])) ∧
    (∀ (rg : ResourceGetter) (net : Net), g = (fun u => rg.Links net u) →
      r.Err ≠ none → r.Links = []) := by
  have hi := inv_run h
  have h1 := (hi.res_fin r hr).1
  have hl : r.Links = (g r.URL).1 := by
    conv_lhs => rw [h1]
    rfl
  have he : r.Err = (g r.URL).2 := by
    conv_lhs => rw [h1]
    rfl
  refine ⟨hl, he, ?_, ?_⟩
  · intro hne
    exact ⟨by rw [he]; exact hne, fun hnil => by rw [hl]; exact hnil⟩
  · intro rg net hg hne
    rw [hl]
    rw [he] at hne
    subst hg
    exact links_empty_of_err rg net r.URL hne

/-- Instance of `result_carries_getter_output` on `brokenRun`. -/
theorem result_carries_getter_output_witness :
    run brokenGetter (Crawl "a") brokenRun = some brokenEnd ∧
      (⟨⟨"a", ["b"]⟩, some "boom"⟩ : Result) ∈ results brokenEnd.log ∧
      (⟨⟨"a", ["b"]⟩, some "boom"⟩ : Result).Err = (brokenGetter "a").2 :=
  ⟨by decide, by decide,
    (result_carries_getter_output brokenGetter "a" brokenRun brokenEnd (by decide)
      ⟨⟨"a", ["b"]⟩, some "boom"⟩ (by decide)).2.1⟩

/-! ## Shutdown -/

theorem split_concat {α : Type} {l pre post : List α} {e x : α}
    (h : l ++ [e] = pre ++ x :: post) :
    (post = [] ∧ pre = l ∧ x = e) ∨ ∃ post2, post = post2 ++ [e] ∧ l = pre ++ x :: post2 := by
  rcases List.eq_nil_or_concat post with hp | ⟨post2, e2, hp⟩
  · subst hp
    have := List.append_inj' h rfl
    simp only [List.cons.injEq, and_true] at this
    exact Or.inl ⟨rfl, this.1.symm, this.2.symm⟩
  · subst hp
    have h2 : l ++ [e] = (pre ++ x :: post2) ++ [e2] := by simpa using h
    have := List.append_inj' h2 rfl
    simp only [List.cons.injEq, and_true] at this
    exact Or.inr ⟨post2, by rw [this.2, List.concat_eq_append], this.1⟩

theorem loginv_init (seed : String) : LogInv (Crawl seed) where
  done_iff := by simp [Crawl]
  close_iff := by simp [Crawl]
  close_once := by simp [Crawl]
  close_after := by intro pre post h; simp [Crawl] at h
  panic_iff := by simp [Crawl]
  panic_last := by intro pre post u h; simp [Crawl] at h

theorem loginv_congr {s t : State} (h : LogInv s) (h1 : t.log = s.log)
    (h2 : t.watcher = s.watcher) (h3 : t.panicked = s.panicked) : LogInv t := by
  obtain ⟨c, i, v, w, x, p, l⟩ := t
  simp only at h1 h2 h3
  subst h1 h2 h3
  exact ⟨h.done_iff, h.close_iff, h.close_once, h.close_after, h.panic_iff, h.panic_last⟩

theorem no_panic_in_log {s : State} (h : LogInv s) (hp : s.panicked = false)
    {pre post : List Event} {u : String} (e : s.log = pre ++ Event.panic u :: post) : False := by
  have : ∃ u, Event.panic u ∈ s.log := ⟨u, by rw [e]; simp⟩
  rw [h.panic_iff, hp] at this
  cases this

theorem loginv_quiet {s t : State} {e : Event} (h : LogInv s) (hp : s.panicked = false)
    (h1 : t.log = s.log ++ [e]) (h2 : t.watcher = s.watcher) (h3 : t.panicked = false)
    (he1 : e ≠ .done) (he2 : e ≠ .close) (he3 : ∀ u, e ≠ .panic u)
    (he4 : s.watcher = .exited → ∀ r, e ≠ .result r) : LogInv t := by
  obtain ⟨c, i, v, w, x, p, l⟩ := t
  simp only at h1 h2 h3
  subst h1 h2 h3
  refine ⟨?_, ?_, ?_, ?_, ?_, ?_⟩
  · simp only [List.mem_append, List.mem_singleton]
    rw [← h.done_iff]
    constructor
    · rintro (a | a)
      · exact a
      · exact absurd a.symm he1
    · exact Or.inl
  · simp only [List.mem_append, List.mem_singleton]
    rw [← h.close_iff]
    constructor
    · rintro (a | a)
      · exact a
      · exact absurd a.symm he2
    · exact Or.inl
  · simp only [List.count_append, List.count_singleton]
    have := h.close_once
    have hne : (e == Event.close) = false := by simpa using he2
    simp only [hne, Bool.false_eq_true, if_false, Nat.add_zero]
    exact this
  · intro pre post hs
    simp only at hs
    rcases split_concat hs with ⟨_, _, hx⟩ | ⟨post2, hp2, hl⟩
    · exact absurd hx.symm he2
    · obtain ⟨hd, hr⟩ := h.close_after pre post2 hl
      refine ⟨hd, ?_⟩
      intro r hm
      rw [hp2] at hm
      simp only [List.mem_append, List.mem_singleton] at hm
      rcases hm with hm | hm
      · exact hr r hm
      · have hx : s.watcher = .exited := h.close_iff.1 (by rw [hl]; simp)
        exact he4 hx r hm.symm
  · simp only [List.mem_append, List.mem_singleton]
    constructor
    · rintro ⟨u, a | a⟩
      · have := h.panic_iff.1 ⟨u, a⟩
        rw [hp] at this
        cases this
      · exact absurd a.symm (he3 u)
    · intro a; cases a
  · intro pre post u hs
    simp only at hs
    rcases split_concat hs with ⟨_, _, hx⟩ | ⟨post2, _, hl⟩
    · exact absurd hx.symm (he3 u)
    · exact (no_panic_in_log h hp hl).elim

theorem loginv_step {g : LinkGetter} {s t : State} (h : LogInv s) (st : Step g s t) :
    LogInv t := by
  cases st with
  | seed hp hc hi => exact loginv_congr h rfl rfl rfl
  | skip hp hi hv => exact loginv_congr h rfl rfl rfl
  | accept hp hi hv => exact loginv_congr h rfl rfl rfl
  | sendIn hp hw hi => exact loginv_congr h rfl rfl rfl
  | links hp hw =>
    exact loginv_quiet h hp rfl rfl hp (by simp) (by simp) (by simp) (by simp)
  | deliver hp hw hx =>
    exact loginv_quiet h hp rfl rfl hp (by simp) (by simp) (by simp)
      (fun e => absurd e hx)
  | panic hp hw hx =>
    rename_i i url res ops
    refine ⟨?_, ?_, ?_, ?_, ?_, ?_⟩
    · simp only [List.mem_append, List.mem_singleton]
      rw [← h.done_iff]; simp
    · simp only [List.mem_append, List.mem_singleton]
      rw [← h.close_iff]; simp
    · simp only [List.count_append, List.count_singleton]
      have := h.close_once
      simpa using this
    · intro pre post hs
      simp only at hs
      rcases split_concat hs with ⟨_, _, hx2⟩ | ⟨post2, hp2, hl⟩
      · cases hx2
      · obtain ⟨hd, hr⟩ := h.close_after pre post2 hl
        refine ⟨hd, ?_⟩
        intro r hm
        rw [hp2] at hm
        simp only [List.mem_append, List.mem_singleton] at hm
        rcases hm with hm | hm
        · exact hr r hm
        · cases hm
    · simp only [List.mem_append, List.mem_singleton, iff_true]
      exact ⟨url, Or.inr rfl⟩
    · intro pre post u hs
      simp only at hs
      rcases split_concat hs with ⟨hp2, hpre, _⟩ | ⟨post2, _, hl⟩
      · subst hpre
        exact ⟨h.close_iff.2 hx, hp2⟩
      · exact (no_panic_in_log h hp hl).elim
  | done hp hx =>
    have hnc : Event.close ∉ s.log := by
      rw [h.close_iff, hx]; simp
    refine ⟨?_, ?_, ?_, ?_, ?_, ?_⟩
    · simp
    · simp only [List.mem_append, List.mem_singleton]
      simp [hnc]
    · simp only [List.count_append, List.count_singleton]
      have := h.close_once
      simpa using this
    · intro pre post hs
      simp only at hs
      rcases split_concat hs with ⟨_, _, hx2⟩ | ⟨post2, _, hl⟩
      · cases hx2
      · exact absurd (by rw [hl]; simp) hnc
    · simp only [List.mem_append, List.mem_singleton]
      constructor
      · rintro ⟨u, a | a⟩
        · have := h.panic_iff.1 ⟨u, a⟩
          rw [hp] at this
          cases this
        · cases a
      · intro a; rw [hp] at a; cases a
    · intro pre post u hs
      simp only at hs
      rcases split_concat hs with ⟨_, _, hx2⟩ | ⟨post2, _, hl⟩
      · cases hx2
      · exact (no_panic_in_log h hp hl).elim
  | close hp hx =>
    have hnc : Event.close ∉ s.log := by
      rw [h.close_iff, hx]; simp
    have hd : Event.done ∈ s.log := by
      rw [h.done_iff, hx]; simp
    refine ⟨?_, ?_, ?_, ?_, ?_, ?_⟩
    · simp [hd]
    · simp
    · simp only [List.count_append, List.count_singleton]
      have : s.log.count Event.close = 0 := List.count_eq_zero.2 hnc
      simp [this]
    · intro pre post hs
      simp only at hs
      rcases split_concat hs with ⟨hp2, hpre, _⟩ | ⟨post2, _, hl⟩
      · subst hpre
        subst hp2
        exact ⟨hd, by simp⟩
      · exact absurd (by rw [hl]; simp) hnc
    · simp only [List.mem_append, List.mem_singleton]
      constructor
      · rintro ⟨u, a | a⟩
        · have := h.panic_iff.1 ⟨u, a⟩
          rw [hp] at this
          cases this
        · cases a
      · intro a; rw [hp] at a; cases a
    · intro pre post u hs
      simp only at hs
      rcases split_concat hs with ⟨_, _, hx2⟩ | ⟨post2, _, hl⟩
      · cases hx2
      · exact (no_panic_in_log h hp hl).elim

theorem loginv_run {g : LinkGetter} {seed : String} {sched : List Action} {s : State}
    (h : run g (Crawl seed) sched = some s) : LogInv s :=
  run_induction LogInv (fun _ _ hs st => loginv_step hs st) sched _ _ (loginv_init seed) h

theorem not_panicked_of_open {s : State} (h : LogInv s) (hx : s.watcher ≠ .exited) :
    s.panicked = false := by
  cases hp : s.panicked with
  | false => rfl
  | true =>
    obtain ⟨u, hu⟩ := h.panic_iff.2 hp
    obtain ⟨pre, post, e⟩ := List.append_of_mem hu
    have hc : Event.close ∈ s.log := by
      rw [e]
      exact List.mem_append_left _ (h.panic_last pre post u e).1
    exact absurd (h.close_iff.1 hc) hx

/-- Claim C8, as stated, fails: in `stopRun` the worker of `a` sends its Result
on `out` after `out` has been closed, which panics; and in `brokenRun`, where
the stop signal never fires, `out` is not closed at all. -/
theorem send_on_closed_out :
    (run brokenGetter (Crawl "a") stopRun).map (fun s => (s.log, s.panicked)) =
      some ([.links "a", .done, .close, .panic "a"], true) ∧
    (run brokenGetter (Crawl "a") brokenRun).map (fun s => s.log.count Event.close) =
      some 0 := by
  decide

/-- Claim C8, amended: in every execution of `Crawl`, `out` is closed at most
once and only after the stop signal has been received, and no Result is
delivered on `out` after the close; a worker that sends on the closed `out`
panics, which happens only after the close and ends the execution; once the
stop signal has been received the watcher can close `out`. -/
theorem close_at_most_once (g : LinkGetter) (seed : String) (sched : List Action)
    (s : State) (h : run g (Crawl seed) sched = some s) :
    s.log.count Event.close ≤ 1 ∧
    (∀ pre post, s.log = pre ++ Event.close :: post →
      Event.done ∈ pre ∧ ∀ r, Event.result r ∉ post) ∧
    (∀ pre post u, s.log = pre ++ Event.panic u :: post →
      Event.close ∈ pre ∧ post = []) ∧
    (s.panicked = true → ∀ a, step g s a = none) ∧
    (s.watcher = .signalled →
      ∃ t, step g s .close = some t ∧ t.log = s.log ++ [Event.close]) := by
  have hl := loginv_run h
  refine ⟨hl.close_once, hl.close_after, hl.panic_last, ?_, ?_⟩
  · intro hp a
    cases a <;> simp [step, hp]
  · intro hx
    have hp := not_panicked_of_open hl (by rw [hx]; simp)
    exact ⟨_, by simp only [step, hp, hx, Bool.false_eq_true, if_false, if_true]; rfl, by rfl⟩

/-- Instance of `close_at_most_once` on `stopRun`. -/
theorem close_at_most_once_witness :
    run brokenGetter (Crawl "a") stopRun = some stopEnd ∧
      stopEnd.log.count Event.close ≤ 1 :=
  ⟨by decide, (close_at_most_once brokenGetter "a" stopRun stopEnd (by decide)).1⟩

/-! ## Results of dispatched workers -/

theorem get?_set_self {α : Type} {l : List α} {i : Nat} {a b : α}
    (h : l[i]? = some b) : (l.set i a)[i]? = some a := by
  induction l generalizing i with
  | nil => simp at h
  | cons y ys ih =>
    cases i with
    | zero => simp
    | succ j =>
      simp only [List.getElem?_cons_succ] at h
      simp only [List.set_cons_succ, List.getElem?_cons_succ]
      exact ih h

theorem get?_append_left {α : Type} {l x : List α} {i : Nat} {b : α}
    (h : l[i]? = some b) : (l ++ x)[i]? = some b := by
  induction l generalizing i with
  | nil => simp at h
  | cons y ys ih =>
    cases i with
    | zero => simpa using h
    | succ j =>
      simp only [List.getElem?_cons_succ] at h
      simp only [List.cons_append, List.getElem?_cons_succ]
      exact ih h

theorem run_append (g : LinkGetter) (xs ys : List Action) :
    ∀ s : State, run g s (xs ++ ys) = (run g s xs).bind (fun m => run g m ys) := by
  induction xs with
  | nil => intro s; rfl
  | cons a as ih =>
    intro s
    simp only [List.cons_append, run]
    cases step g s a with
    | none => rfl
    | some m => simp only [Option.some_bind]; exact ih m

/-- While `out` is open, worker `i` and the gatekeeper can perform all the
channel operations the worker has left. -/
theorem drain (g : LinkGetter) (i : Nat) (u : String) :
    ∀ (ops : List Op) (s : State), s.panicked = false → s.watcher ≠ .exited →
      s.inbox = none → s.workers[i]? = some ⟨u, some ops⟩ →
      ∃ more t, run g s more = some t ∧
        (∀ a ∈ more, a = Action.gate ∨ a = Action.links i ∨ a = Action.send i) ∧
        t.workers[i]? = some ⟨u, some []⟩ := by
  intro ops
  induction ops with
  | nil =>
    intro s _ _ _ hw
    exact ⟨[], s, rfl, by simp, hw⟩
  | cons op ops ih =>
    intro s hp hx hi hw
    cases op with
    | sendIn link =>
      have h1 : step g s (.send i) =
          some { s with inbox := some link, workers := s.workers.set i ⟨u, some ops⟩ } := by
        simp only [step, hp, hw, hi, Bool.false_eq_true, if_false]
      have h2 : step g { s with inbox := some link,
                                workers := s.workers.set i ⟨u, some ops⟩ } .gate =
          some { s with inbox := none, visited := (gatekeeper s.visited link).1,
                        workers := s.workers.set i ⟨u, some ops⟩ ++
                          (gatekeeper s.visited link).2.toList.map (fun v => ⟨v, none⟩) } := by
        simp only [step, hp, Bool.false_eq_true, if_false]
      obtain ⟨more, t, hr, hn, ht⟩ :=
        ih { s with inbox := none, visited := (gatekeeper s.visited link).1,
                    workers := s.workers.set i ⟨u, some ops⟩ ++
                      (gatekeeper s.visited link).2.toList.map (fun v => ⟨v, none⟩) }
          hp hx rfl
          (get?_append_left (x := (gatekeeper s.visited link).2.toList.map (fun v => ⟨v, none⟩))
            (get?_set_self (a := ⟨u, some ops⟩) hw))
      refine ⟨.send i :: .gate :: more, t, ?_, ?_, ht⟩
      · simp only [run, h1, h2, Option.some_bind]
        exact hr
      · intro a ha
        simp only [List.mem_cons] at ha
        rcases ha with ha | ha | ha
        · exact Or.inr (Or.inr ha)
        · exact Or.inl ha
        · exact hn a ha
    | sendOut res =>
      have h1 : step g s (.send i) =
          some { s with workers := s.workers.set i ⟨u, some ops⟩,
                        log := s.log ++ [.result res] } := by
        simp only [step, hp, hw, hx, Bool.false_eq_true, if_false]
      obtain ⟨more, t, hr, hn, ht⟩ :=
        ih { s with workers := s.workers.set i ⟨u, some ops⟩,
                    log := s.log ++ [.result res] }
          hp hx hi (get?_set_self (a := ⟨u, some ops⟩) hw)
      refine ⟨.send i :: more, t, ?_, ?_, ht⟩
      · simp only [run, h1, Option.some_bind]
        exact hr
      · intro a ha
        simp only [List.mem_cons] at ha
        rcases ha with ha | ha
        · exact Or.inr (Or.inr ha)
        · exact hn a ha

/-- While `out` is open, a dispatched worker can be run to its return by its
own moves and those of the gatekeeper. -/
theorem finish (g : LinkGetter) (i : Nat) (u : String) (todo : Option (List Op))
    (s : State) (hp : s.panicked = false) (hx : s.watcher ≠ .exited)
    (hw : s.workers[i]? = some ⟨u, todo⟩) :
    ∃ more t, run g s more = some t ∧
      (∀ a ∈ more, a = Action.gate ∨ a = Action.links i ∨ a = Action.send i) ∧
      t.workers[i]? = some ⟨u, some []⟩ := by
  have started : ∀ (s : State), s.panicked = false → s.watcher ≠ .exited →
      s.inbox = none → s.workers[i]? = some ⟨u, todo⟩ →
      ∃ more t, run g s more = some t ∧
        (∀ a ∈ more, a = Action.gate ∨ a = Action.links i ∨ a = Action.send i) ∧
        t.workers[i]? = some ⟨u, some []⟩ := by
    intro s hp hx hi hw
    cases todo with
    | some ops => exact drain g i u ops s hp hx hi hw
    | none =>
      have h1 : step g s (.links i) =
          some { s with workers := s.workers.set i ⟨u, some (doWork g u)⟩,
                        log := s.log ++ [.links u] } := by
        simp only [step, hp, hw, Bool.false_eq_true, if_false]
      obtain ⟨more, t, hr, hn, ht⟩ := drain g i u (doWork g u)
        { s with workers := s.workers.set i ⟨u, some (doWork g u)⟩,
                 log := s.log ++ [.links u] }
        hp hx hi (get?_set_self (a := ⟨u, some (doWork g u)⟩) hw)
      refine ⟨.links i :: more, t, ?_, ?_, ht⟩
      · simp only [run, h1, Option.some_bind]
        exact hr
      · intro a ha
        simp only [List.mem_cons] at ha
        rcases ha with ha | ha
        · exact Or.inr (Or.inl ha)
        · exact hn a ha
  cases hi : s.inbox with
  | none => exact started s hp hx hi hw
  | some link =>
    have h1 : step g s .gate =
        some { s with inbox := none, visited := (gatekeeper s.visited link).1,
                      workers := s.workers ++
                        (gatekeeper s.visited link).2.toList.map (fun v => ⟨v, none⟩) } := by
      simp only [step, hp, hi, Bool.false_eq_true, if_false]
    obtain ⟨more, t, hr, hn, ht⟩ :=
      started { s with inbox := none, visited := (gatekeeper s.visited link).1,
                       workers := s.workers ++
                         (gatekeeper s.visited link).2.toList.map (fun v => ⟨v, none⟩) }
        hp hx rfl
        (get?_append_left (x := (gatekeeper s.visited link).2.toList.map (fun v => ⟨v, none⟩)) hw)
    refine ⟨.gate :: more, t, ?_, ?_, ht⟩
    · simp only [run, h1, Option.some_bind]
      exact hr
    · intro a ha
      simp only [List.mem_cons] at ha
      rcases ha with ha | ha
      · exact Or.inl ha
      · exact hn a ha

/-- Claim C2, as stated, fails: at the end of `stopRun` the URLs `a` and `b`
have been dispatched, `out` has been closed, the send of the worker of `a` has
panicked, no move is left and no Result has been delivered for `a` or `b`. -/
theorem dispatched_without_result :
    run brokenGetter (Crawl "a") stopRun = some stopEnd ∧
    dispatched stopEnd = ["a", "b"] ∧
    results stopEnd.log = [] ∧
    [Action.seed, .gate, .links 0, .links 1, .send 0, .send 1, .done, .close].map
        (step brokenGetter stopEnd) =
      [none, none, none, none, none, none, none, none] := by
  decide

/-- Claim C2, amended: `doWork(u)` first sends every link returned by
`g.Links(u)` on `in`, then sends one Result on `out`, carrying `u`, those links
and the error of `g.Links(u)`, whether or not that error is nil. For a
dispatched `u`, as long as `out` has not been closed, the worker of `u` and the
gatekeeper alone can run `doWork(u)` to its end, after which `out` has delivered
exactly one Result for `u`; `out` never delivers more than one Result for `u`;
a delivered Result for `u` is the one above, and every link of `u` has been
received by the gatekeeper before it. Nothing is delivered for `u` once `out`
is closed. -/
theorem doWork_result_unless_stopped (g : LinkGetter) (u : String) :
    doWork g u =
      (g u).1.map Op.sendIn ++ [Op.sendOut ⟨⟨u, (g u).1⟩, (g u).2⟩] ∧
    (∀ (seed : String) (sched : List Action) (s : State),
      run g (Crawl seed) sched = some s → u ∈ dispatched s → s.watcher ≠ .exited →
        ∃ (i : Nat) (more : List Action) (t : State),
          run g (Crawl seed) (sched ++ more) = some t ∧
          (∀ a ∈ more, a = Action.gate ∨ a = Action.links i ∨ a = Action.send i) ∧
          (results t.log).filter (fun r => r.URL = u) = [⟨⟨u, (g u).1⟩, (g u).2⟩]) ∧
    (∀ (seed : String) (sched : List Action) (s : State),
      run g (Crawl seed) sched = some s →
        ((results s.log).filter (fun r => r.URL = u) = [] ∨
         (results s.log).filter (fun r => r.URL = u) = [⟨⟨u, (g u).1⟩, (g u).2⟩]) ∧
        ((⟨u, some []⟩ : Worker) ∈ s.workers →
          (results s.log).filter (fun r => r.URL = u) = [⟨⟨u, (g u).1⟩, (g u).2⟩]) ∧
        (∀ r ∈ results s.log, r.URL = u →
          r = ⟨⟨u, (g u).1⟩, (g u).2⟩ ∧
          ∀ l ∈ (g u).1, l ∈ s.visited ∨ s.inbox = some l) ∧
        (s.watcher = .exited → ∀ (a : Action) (t : State), step g s a = some t →
          results t.log = results s.log)) := by
  refine ⟨?_, ?_, ?_⟩
  · rw [doWork_eq, sendLinks_eq_map]; rfl
  · intro seed sched s h hu hx
    have hl := loginv_run h
    have hp := not_panicked_of_open hl hx
    obtain ⟨w, hw, hurl⟩ := List.mem_map.1 hu
    obtain ⟨i, hget⟩ := List.getElem?_of_mem hw
    obtain ⟨url, todo⟩ := w
    simp only at hurl
    subst hurl
    obtain ⟨more, t, hr, hn, ht⟩ := finish g i url todo s hp hx hget
    have hrun : run g (Crawl seed) (sched ++ more) = some t := by
      rw [run_append, h]
      exact hr
    have hi := inv_run hrun
    exact ⟨i, more, t, hrun, hn,
      filter_url_eq_singleton hi.res_nodup (hi.fin_res _ (mem_of_get? ht) rfl)⟩
  · intro seed sched s h
    have hi := inv_run h
    have hl := loginv_run h
    have hres : ∀ r ∈ results s.log, r.URL = u → r = ⟨⟨u, (g u).1⟩, (g u).2⟩ := by
      intro r hr hu
      have h1 := (hi.res_fin r hr).1
      rw [hu] at h1
      exact h1
    refine ⟨?_, ?_, ?_, ?_⟩
    · by_cases hex : ∃ r ∈ results s.log, r.URL = u
      · obtain ⟨r, hr, hu⟩ := hex
        right
        have := filter_url_eq_singleton hi.res_nodup hr
        rw [hu] at this
        rw [this, hres r hr hu]
      · left
        rw [List.filter_eq_nil_iff]
        intro r hr
        simp only [decide_eq_true_eq]
        exact fun e => hex ⟨r, hr, e⟩
    · intro hw
      exact filter_url_eq_singleton hi.res_nodup (hi.fin_res _ hw rfl)
    · intro r hr hu
      obtain ⟨_, w, hw, hurl, htodo⟩ := hi.res_fin r hr
      rw [hu] at hurl
      refine ⟨hres r hr hu, ?_⟩
      intro l hlk
      rw [← hurl] at hlk
      rcases hi.closure w hw [] htodo l hlk with a | a | a
      · cases a
      · exact Or.inl a
      · exact Or.inr a
    · intro hx a t hst
      cases step_sound hst with
      | seed _ _ _ => rfl
      | skip _ _ _ => rfl
      | accept _ _ _ => rfl
      | sendIn _ _ _ => rfl
      | links _ _ => simp [results_append, results]
      | deliver _ _ hne => exact absurd hx hne
      | panic _ _ _ => simp [results_append, results]
      | done _ hw => rw [hx] at hw; cases hw
      | close _ hw => rw [hx] at hw; cases hw

/-- Instance of `doWork_result_unless_stopped`: at the end of `brokenRun` the
URL `b` is dispatched and its worker has not started; the worker and the
gatekeeper can run it to the one Result of `b`. -/
theorem doWork_result_unless_stopped_witness :
    run brokenGetter (Crawl "a") brokenRun = some brokenEnd ∧
    "b" ∈ dispatched brokenEnd ∧ brokenEnd.watcher ≠ .exited ∧
    ∃ (i : Nat) (more : List Action) (t : State),
      run brokenGetter (Crawl "a") (brokenRun ++ more) = some t ∧
      (∀ a ∈ more, a = Action.gate ∨ a = Action.links i ∨ a = Action.send i) ∧
      (results t.log).filter (fun r => r.URL = "b") =
        [⟨⟨"b", (brokenGetter "b").1⟩, (brokenGetter "b").2⟩] :=
  ⟨by decide, by decide, by decide,
    (doWork_result_unless_stopped brokenGetter "b").2.1 "a" brokenRun brokenEnd
      (by decide) (by decide) (by decide)⟩

/-! ## Termination and completeness of a crawl -/

theorem sum_map_set {l : List Worker} {i : Nat} {w a : Worker} (f : Worker → Nat)
    (h : l[i]? = some w) : ((l.set i a).map f).sum + f w = (l.map f).sum + f a := by
  induction l generalizing i with
  | nil => simp at h
  | cons y ys ih =>
    cases i with
    | zero =>
      simp only [List.getElem?_cons_zero, Option.some.injEq] at h
      subst h
      simp only [List.set_cons_zero, List.map_cons, List.sum_cons]
      omega
    | succ j =>
      simp only [List.getElem?_cons_succ] at h
      have := ih h
      simp only [List.set_cons_succ, List.map_cons, List.sum_cons]
      omega

theorem sum_filter_le (c : String → Nat) (p q : String → Bool)
    (hpq : ∀ u, q u = true → p u = true) (nodes : List String) :
    ((nodes.filter q).map c).sum ≤ ((nodes.filter p).map c).sum := by
  induction nodes with
  | nil => simp
  | cons x xs ih =>
    cases hq : q x with
    | true =>
      simp only [List.filter_cons, hq, hpq x hq, if_true, List.map_cons, List.sum_cons]
      omega
    | false =>
      cases hp : p x with
      | true =>
        simp only [List.filter_cons, hq, hp, if_true, Bool.false_eq_true, if_false,
          List.map_cons, List.sum_cons]
        omega
      | false =>
        simp only [List.filter_cons, hq, hp, Bool.false_eq_true, if_false]
        exact ih

theorem sum_filter_drop (c : String → Nat) (p q : String → Bool)
    (hpq : ∀ u, q u = true → p u = true) (link : String) (hp : p link = true)
    (hq : q link = false) (nodes : List String) (hm : link ∈ nodes) :
    ((nodes.filter q).map c).sum + c link ≤ ((nodes.filter p).map c).sum := by
  induction nodes with
  | nil => cases hm
  | cons x xs ih =>
    by_cases hx : x = link
    · subst hx
      have := sum_filter_le c p q hpq xs
      simp only [List.filter_cons, hq, hp, if_true, Bool.false_eq_true, if_false,
        List.map_cons, List.sum_cons]
      omega
    · simp only [List.mem_cons] at hm
      have hm2 : link ∈ xs := by
        rcases hm with hm | hm
        · exact absurd hm.symm hx
        · exact hm
      have := ih hm2
      cases hqx : q x with
      | true =>
        simp only [List.filter_cons, hqx, hpq x hqx, if_true, List.map_cons, List.sum_cons]
        omega
      | false =>
        cases hpx : p x with
        | true =>
          simp only [List.filter_cons, hqx, hpx, if_true, Bool.false_eq_true, if_false,
            List.map_cons, List.sum_cons]
          omega
        | false =>
          simp only [List.filter_cons, hqx, hpx, Bool.false_eq_true, if_false]
          exact this

theorem sum_filter_accept (c : String → Nat) (visited : List String) (link : String)
    (nodes : List String) (hm : link ∈ nodes) (hv : link ∉ visited) :
    ((nodes.filter (fun u => u ∉ link :: visited)).map c).sum + c link ≤
      ((nodes.filter (fun u => u ∉ visited)).map c).sum := by
  apply sum_filter_drop c _ _ _ link _ _ nodes hm
  · intro u hu
    simp only [List.mem_cons, not_or, decide_eq_true_eq] at hu ⊢
    exact hu.2
  · simpa using hv
  · simp

theorem movesLeft_step {g : LinkGetter} {seed : String} {nodes : List String}
    (hfin : ∀ u, Reach g seed u → u ∈ nodes) {s t : State} (h : Inv g seed s)
    (st : Step g s t) : movesLeft g nodes t + 1 ≤ movesLeft g nodes s := by
  cases st with
  | seed hp hc hi =>
    simp only [movesLeft, hc, hi, hp, Option.isSome_some, Option.isSome_none, if_true,
      Bool.false_eq_true, if_false]
    omega
  | skip hp hi hv =>
    simp only [movesLeft, hi, hp, Option.isSome_some, Option.isSome_none, if_true,
      Bool.false_eq_true, if_false]
    omega
  | accept hp hi hv =>
    rename_i link
    have hmem : link ∈ nodes := hfin link (h.reach_inbox link hi)
    have := sum_filter_accept (urlCost g) s.visited link nodes hmem hv
    simp only [movesLeft, hi, hp, Option.isSome_some, Option.isSome_none, if_true,
      Bool.false_eq_true, if_false, List.map_append, List.sum_append, List.map_cons,
      List.map_nil, List.sum_cons, List.sum_nil, workerCost]
    omega
  | links hp hw =>
    rename_i i url
    have := sum_map_set (a := ⟨url, some (doWork g url)⟩) (workerCost g) hw
    simp only [workerCost, urlCost] at this
    simp only [movesLeft, hp, Bool.false_eq_true, if_false]
    omega
  | sendIn hp hw hi =>
    rename_i i url link ops
    have := sum_map_set (a := ⟨url, some ops⟩) (workerCost g) hw
    simp only [workerCost, opsCost, List.map_cons, List.sum_cons, opCost] at this
    simp only [movesLeft, hp, hi, Option.isSome_some, Option.isSome_none, if_true,
      Bool.false_eq_true, if_false]
    omega
  | deliver hp hw hx =>
    rename_i i url res ops
    have := sum_map_set (a := ⟨url, some ops⟩) (workerCost g) hw
    simp only [workerCost, opsCost, List.map_cons, List.sum_cons, opCost] at this
    simp only [movesLeft, hp, Bool.false_eq_true, if_false]
    omega
  | panic hp hw hx =>
    simp only [movesLeft, hp, Bool.false_eq_true, if_false, if_true]
    omega
  | done hp hx =>
    simp only [movesLeft, hp, hx, watcherCost]
    omega
  | close hp hx =>
    simp only [movesLeft, hp, hx, watcherCost]
    omega

theorem run_length {g : LinkGetter} {seed : String} {nodes : List String}
    (hfin : ∀ u, Reach g seed u → u ∈ nodes) :
    ∀ (sched : List Action) (s t : State), Inv g seed s → run g s sched = some t →
      sched.length + movesLeft g nodes t ≤ movesLeft g nodes s := by
  intro sched
  induction sched with
  | nil =>
    intro s t _ h
    simp only [run, Option.some.injEq] at h
    subst h
    simp
  | cons a as ih =>
    intro s t hs h
    simp only [run] at h
    cases hst : step g s a with
    | none => simp [hst] at h
    | some m =>
      simp only [hst, Option.some_bind] at h
      have h1 := @movesLeft_step g seed nodes hfin s m hs (step_sound hst)
      have h2 := ih m t (inv_step hs (step_sound hst)) h
      simp only [List.length_cons]
      omega

theorem movesLeft_init (g : LinkGetter) (nodes : List String) (seed : String) :
    movesLeft g nodes (Crawl seed) = runBound g nodes := by
  have : nodes.filter (fun u => decide (u ∉ ([] : List String))) = nodes := by
    rw [List.filter_eq_self]
    intro u _
    simp
  simp only [movesLeft, Crawl, runBound, this, Option.isSome_some, Option.isSome_none,
    if_true, Bool.false_eq_true, if_false, List.map_nil, List.sum_nil, watcherCost]
  omega

theorem progress {g : LinkGetter} {s : State} (hp : s.panicked = false)
    (hf : finished s = false) :
    ∃ a t, a ≠ Action.done ∧ a ≠ Action.close ∧ step g s a = some t ∧
      (s.watcher ≠ .exited → t.panicked = false) := by
  cases hi : s.inbox with
  | some link =>
    exact ⟨.gate, _, by simp, by simp, by simp only [step, hp, hi, Bool.false_eq_true, if_false]; rfl, by intro _; rfl⟩
  | none =>
    cases hc : s.caller with
    | some url =>
      exact ⟨.seed, _, by simp, by simp, by simp only [step, hp, hi, hc, Bool.false_eq_true, if_false]; rfl, by intro _; rfl⟩
    | none =>
      simp only [finished, hi, hc, Option.isNone_none, Bool.true_and, List.all_eq_false] at hf
      obtain ⟨w, hw, hne⟩ := hf
      obtain ⟨i, hget⟩ := List.getElem?_of_mem hw
      obtain ⟨url, todo⟩ := w
      cases todo with
      | none =>
        exact ⟨.links i, _, by simp, by simp, by simp only [step, hp, hget, Bool.false_eq_true, if_false]; rfl, by intro _; rfl⟩
      | some ops =>
        cases ops with
        | nil => simp at hne
        | cons op ops =>
          cases op with
          | sendIn link =>
            exact ⟨.send i, _, by simp, by simp, by simp only [step, hp, hget, hi, Bool.false_eq_true, if_false]; rfl,
              by intro _; rfl⟩
          | sendOut res =>
            by_cases hx : s.watcher = .exited
            · exact ⟨.send i, _, by simp, by simp,
                by simp only [step, hp, hget, hx, Bool.false_eq_true, if_false, if_true]; rfl,
                by intro h; exact absurd hx h⟩
            · exact ⟨.send i, _, by simp, by simp,
                by simp only [step, hp, hget, hx, Bool.false_eq_true, if_false]; rfl,
                by intro _; rfl⟩

theorem stuck_of_finished {g : LinkGetter} {s : State} (hf : finished s = true)
    (a : Action) (h1 : a ≠ .done) (h2 : a ≠ .close) : step g s a = none := by
  simp only [finished, Bool.and_eq_true, Option.isNone_iff_eq_none, List.all_eq_true,
    beq_iff_eq] at hf
  obtain ⟨⟨hc, hi⟩, hw⟩ := hf
  cases a with
  | seed => simp [step, hc]
  | gate => simp [step, hi]
  | done => exact absurd rfl h1
  | close => exact absurd rfl h2
  | links i =>
    cases hget : s.workers[i]? with
    | none => simp [step, hget]
    | some w =>
      have := hw w (mem_of_get? hget)
      obtain ⟨url, todo⟩ := w
      simp only at this
      subst this
      simp [step, hget]
  | send i =>
    cases hget : s.workers[i]? with
    | none => simp [step, hget]
    | some w =>
      have := hw w (mem_of_get? hget)
      obtain ⟨url, todo⟩ := w
      simp only at this
      subst this
      simp [step, hget]

theorem visited_of_reach {g : LinkGetter} {seed : String} {s : State} (h : Inv g seed s)
    (hf : finished s = true) : ∀ u, Reach g seed u → u ∈ s.visited := by
  simp only [finished, Bool.and_eq_true, Option.isNone_iff_eq_none, List.all_eq_true,
    beq_iff_eq] at hf
  obtain ⟨⟨hc, hi⟩, hw⟩ := hf
  intro u hu
  induction hu with
  | refl =>
    rcases h.seed_in hc with a | a
    · exact a
    · rw [hi] at a; cases a
  | @tail b c _ hbc ih =>
    obtain ⟨w, hm, hurl⟩ := List.mem_map.1 ((h.visited_iff b).1 ih)
    have hl : c ∈ (g w.url).1 := by rw [hurl]; exact hbc
    rcases h.closure w hm [] (hw w hm) c hl with a | a | a
    · cases a
    · exact a
    · rw [hi] at a; cases a

theorem results_iff_reach {g : LinkGetter} {seed : String} {s : State} (h : Inv g seed s)
    (hf : finished s = true) (u : String) :
    u ∈ (results s.log).map (fun r => r.URL) ↔ Reach g seed u := by
  constructor
  · intro hu
    obtain ⟨r, hr, hru⟩ := List.mem_map.1 hu
    obtain ⟨_, w, hm, hurl, _⟩ := h.res_fin r hr
    have : u ∈ dispatched s := List.mem_map.2 ⟨w, hm, hurl.trans hru⟩
    exact h.reach_visited u ((h.visited_iff u).2 this)
  · intro hu
    have hv := visited_of_reach h hf u hu
    obtain ⟨w, hm, hurl⟩ := List.mem_map.1 ((h.visited_iff u).1 hv)
    simp only [finished, Bool.and_eq_true, List.all_eq_true, beq_iff_eq] at hf
    have hr := h.fin_res w hm (hf.2 w hm)
    exact List.mem_map.2 ⟨_, hr, by simpa [resultOf] using hurl⟩

theorem reach_of_no_links {g : LinkGetter} {seed : String} (h0 : (g seed).1 = [])
    (u : String) (hu : Reach g seed u) : u = seed := by
  induction hu with
  | refl => rfl
  | tail _ hbc ih =>
    subst ih
    rw [h0] at hbc
    cases hbc

theorem single_result {g : LinkGetter} {seed : String} {l : List Result}
    (hn : (l.map (fun r => r.URL)).Nodup)
    (hm : ∀ u, u ∈ l.map (fun r => r.URL) ↔ u = seed)
    (hr : ∀ r ∈ l, r = resultOf g r.URL) : l = [resultOf g seed] := by
  cases l with
  | nil =>
    have := (hm seed).2 rfl
    cases this
  | cons r rs =>
    have h1 : r.URL = seed := (hm r.URL).1 (by simp)
    have h2 : r = resultOf g seed := by
      have := hr r (List.mem_cons_self _ _)
      rw [h1] at this
      exact this
    cases rs with
    | nil => rw [h2]
    | cons r2 rs2 =>
      exfalso
      have h3 : r2.URL = seed := (hm r2.URL).1 (by simp)
      simp only [List.map_cons, List.nodup_cons, List.mem_cons, not_or] at hn
      exact hn.1.1 (h1.trans h3.symm)

theorem chain_nodes (u : String) (hu : Reach chainGetter "a" u) : u ∈ ["a", "b"] := by
  induction hu with
  | refl => simp
  | @tail b c _ hbc ih =>
    simp only [List.mem_cons, List.mem_singleton, List.not_mem_nil, or_false] at ih
    rcases ih with e | e
    · subst e
      have : c = "b" := by simpa [chainGetter] using hbc
      simp [this]
    · subst e
      simp [chainGetter] at hbc

/-- Claim C7: for a link graph with finitely many URLs reachable from the seed
(acyclic or not), every execution of `Crawl` is finite; while no stop signal has
fired and some goroutine has work left, a move other than the stop is enabled and
does not panic; and an execution that has run to completion has delivered
exactly one Result for each URL reachable from the seed and none for any
other URL. A seed without links yields the one Result of the seed. -/
theorem crawl_emits_reachable (g : LinkGetter) (seed : String) (nodes : List String)
    (hfin : ∀ u, Reach g seed u → u ∈ nodes) (sched : List Action) (s : State)
    (h : run g (Crawl seed) sched = some s) :
    sched.length ≤ runBound g nodes ∧
    (s.watcher = .waiting → finished s = false →
      ∃ a t, a ≠ Action.done ∧ a ≠ Action.close ∧ step g s a = some t ∧
        t.panicked = false) ∧
    (finished s = true →
      (∀ a, a ≠ Action.done → a ≠ Action.close → step g s a = none) ∧
      ((results s.log).map (fun r => r.URL)).Nodup ∧
      (∀ u, u ∈ (results s.log).map (fun r => r.URL) ↔ Reach g seed u) ∧
      (∀ r ∈ results s.log, r = ⟨⟨r.URL, (g r.URL).1⟩, (g r.URL).2⟩) ∧
      ((g seed).1 = [] → results s.log = [⟨⟨seed, []⟩, (g seed).2⟩])) := by
  have hi := inv_run h
  have hl := loginv_run h
  refine ⟨?_, ?_, ?_⟩
  · have := @run_length g seed nodes hfin sched _ _ (inv_init g seed) h
    rw [movesLeft_init] at this
    omega
  · intro hx hf
    have hp := not_panicked_of_open hl (by rw [hx]; simp)
    obtain ⟨a, t, h1, h2, h3, h4⟩ := progress (g := g) hp hf
    exact ⟨a, t, h1, h2, h3, h4 (by rw [hx]; simp)⟩
  · intro hf
    refine ⟨stuck_of_finished hf, hi.res_nodup, results_iff_reach hi hf,
      fun r hr => (hi.res_fin r hr).1, ?_⟩
    intro h0
    have := @single_result g seed _ hi.res_nodup
      (fun u => (results_iff_reach hi hf u).trans
        ⟨reach_of_no_links h0 u, fun e => e ▸ Relation.ReflTransGen.refl⟩)
      (fun r hr => (hi.res_fin r hr).1)
    rw [this]
    simp [resultOf, h0]

/-- Instance of `crawl_emits_reachable` on the acyclic graph of `chainGetter`:
`chainRun` is complete and has delivered the Results of `a` and `b`. -/
theorem crawl_emits_reachable_witness :
    run chainGetter (Crawl "a") chainRun = some chainEnd ∧ finished chainEnd = true ∧
      (results chainEnd.log).map (fun r => r.URL) = ["b", "a"] ∧
      ∀ u, u ∈ (results chainEnd.log).map (fun r => r.URL) ↔ Reach chainGetter "a" u :=
  ⟨by decide, by decide, by decide,
    ((crawl_emits_reachable chainGetter "a" ["a", "b"] chain_nodes chainRun chainEnd
      (by decide)).2.2 (by decide)).2.2.1⟩

end Crawler
